import Mathlib

/-!
# Verification of the `bevy_rx` reactive value graph

Shallow embedding of the reactive core of the repository:
* `src/observable.rs` — `ObservableData` (value + subscriber list),
  `ObservableData::update_value`, `ObservableData::send_signal`;
* `src/memo.rs` — `RxMemo::new` / `RxMemo::execute`,
  `MemoQuery::read_and_derive`, `Memo::new`;
* `src/effect.rs` — the deferred-effect queue `RxDeferredEffects`;
* `src/lib.rs` — `ReactiveContext` (`new_signal`, `new_memo`, `send_signal`,
  `read`) and `ReactiveExtensionsPlugin::apply_deferred_effects`.

Modelling decisions:
* Bevy `Entity` ids are `Nat`; the reactive world spawns ids `0, 1, 2, …`,
  so an entity is alive iff its id is below the `next` counter (the
  repository never despawns reactive cells).
* The heterogeneous typed store is modelled over a single value type `V`
  with decidable equality (`T: PartialEq`).  A cell whose
  `RxObservableData<T>` component is absent *or* holds a different type is
  modelled as `obs e = none`, exactly what the typed lookup
  `get::<RxObservableData<T>>` observes.
* An `RxMemo` component is its creation data: the fixed tuple of input
  entities (generalised from tuples of arity 1..32 to a list) and the
  derive function (a pure function of the input values, in input order).
* Rust panics (`unwrap` on `get_many_entities_mut`, `entity_mut` on a
  despawned entity) are modelled as `none` / `RunOut.panic` results.
* The propagation work stack is a `List Nat` whose *head* is the top:
  `Vec::pop` takes the last element, and `Vec::append` adds at the end, so
  appending `subs` to a Rust stack corresponds to `subs.reverse ++ stack`
  here.
* `runStack` carries a ghost log of the entities whose `RxMemo` was taken
  and executed, in execution order.  The log is pure instrumentation: the
  world evolution does not depend on it.
-/

set_option linter.unusedSectionVars false

namespace BevyRx

/-- `ObservableData<T>`: the value slot plus the subscriber `Vec<Entity>`
(`src/observable.rs`). -/
structure Cell (V : Type) where
  data : V
  subscribers : List Nat
  deriving Repr, DecidableEq

/-- The creation data of an `RxMemo` (`src/memo.rs`): the fixed input
entities captured at `Memo::new`, and the derive function applied to the
tuple of current input values. -/
structure MemoData (V : Type) where
  inputs : List Nat
  derive : List V → V

/-- The reactive `World` owned by `ReactiveContext` (`src/lib.rs`):
spawn counter, `RxObservableData` components, `RxMemo` components, the
`RxEffect` annotation, and the `RxDeferredEffects` resource.  A queued
thunk is recorded as the pair of the observable entity and the value it
captured (`value.clone()` in `update_value`). -/
structure RxWorld (V : Type) where
  next : Nat
  obs : Nat → Option (Cell V)
  memo : Nat → Option (MemoData V)
  eff : Nat → Bool
  queue : List (Nat × V)

variable {V : Type} [DecidableEq V]

/-- Replace entity `e`'s `RxObservableData` component. -/
def setObs (w : RxWorld V) (e : Nat) (c : Cell V) : RxWorld V :=
  { w with obs := fun n => if n = e then some c else w.obs n }

/-- Current value of a cell, as seen by `ReactiveContext::read` /
`Memo::read` (which `.unwrap()` the component lookup). -/
def dataOf (w : RxWorld V) (e : Nat) : Option V :=
  (w.obs e).map Cell.data

/-- Current subscriber list of a cell (empty when the component is
absent). -/
def subsOf (w : RxWorld V) (e : Nat) : List Nat :=
  ((w.obs e).map Cell.subscribers).getD []

/-- The effect check at the end of `ObservableData::update_value`
(`src/observable.rs:69`): when the entity carries an `RxEffect`
component, build a thunk capturing the entity and the cloned value and
push it onto the `RxDeferredEffects` stack. -/
def pushEffect (w : RxWorld V) (e : Nat) (v : V) : RxWorld V :=
  if w.eff e then { w with queue := w.queue ++ [(e, v)] } else w

/-- `ObservableData::update_value` (`src/observable.rs:45`): diff the
value, early-exit on equality; otherwise overwrite, move the subscribers
onto the work stack, and queue a deferred effect thunk when the entity
carries an effect annotation.  When the component is absent the code
inserts a fresh one via `world.entity_mut(observable)`, which panics
(`none`) if the entity was never spawned. -/
def updateValue (w : RxWorld V) (stack : List Nat) (e : Nat) (v : V) :
    Option (RxWorld V × List Nat) :=
  match w.obs e with
  | some c =>
    if c.data = v then some (w, stack)
    else
      some (pushEffect (setObs w e { data := v, subscribers := [] }) e v,
        c.subscribers.reverse ++ stack)
  | none =>
    if e < w.next then
      some (pushEffect (setObs w e { data := v, subscribers := [] }) e v, stack)
    else none

/-- The subscription pass of `MemoQuery::read_and_derive`
(`src/memo.rs:124`): walk the inputs in order, pushing `reader` onto each
input's subscriber `Vec`.  A missing `RxObservableData` component makes
the `?` operator return early (`false`), keeping the subscriptions already
installed. -/
def subscribeAll (reader : Nat) : RxWorld V → List Nat → RxWorld V × Bool
  | w, [] => (w, true)
  | w, i :: rest =>
    match w.obs i with
    | none => (w, false)
    | some c =>
      subscribeAll reader
        (setObs w i { c with subscribers := c.subscribers ++ [reader] }) rest

/-- The read pass of `MemoQuery::read_and_derive` (`src/memo.rs:127`):
collect a borrow of each input's current value, failing (`?`) when a
component is absent. -/
def readVals (w : RxWorld V) : List Nat → Option (List V)
  | [] => some []
  | i :: rest =>
    match w.obs i with
    | none => none
    | some c => (readVals w rest).map (c.data :: ·)

/-- `MemoQuery::read_and_derive` (`src/memo.rs:110`): the
`get_many_entities_mut(entities).unwrap()` panics (`none`) when the inputs
repeat an entity or name a despawned one; otherwise subscribe `reader` to
every input and apply the derive function to the current values.  A
missing component makes the recorder return `some (w, none)` via `?`. -/
def readAndDerive (w : RxWorld V) (reader : Nat) (f : List V → V)
    (inputs : List Nat) : Option (RxWorld V × Option V) :=
  if inputs.Nodup ∧ ∀ i ∈ inputs, i < w.next then
    match subscribeAll reader w inputs with
    | (w1, false) => some (w1, none)
    | (w1, true) =>
      match readVals w1 inputs with
      | none => some (w1, none)
      | some vs => some (w1, some (f vs))
  else none

/-- The closure built by `RxMemo::new` (`src/memo.rs:79`): run
`read_and_derive`; when it produced a value, feed it to `update_value` on
the memo's own entity. -/
def memoExecute (w : RxWorld V) (stack : List Nat) (e : Nat)
    (md : MemoData V) : Option (RxWorld V × List Nat) :=
  match readAndDerive w e md.derive md.inputs with
  | none => none
  | some (w1, none) => some (w1, stack)
  | some (w1, some v) => updateValue w1 stack e v

/-- Outcome of running the propagation loop: the final world plus the
ghost execution log, a panic, or fuel exhaustion (the Rust loop has no
intrinsic bound). -/
inductive RunOut (V : Type) where
  | ok (w : RxWorld V) (log : List Nat)
  | panic
  | fuelOut

/-- The `while let Some(sub) = stack.pop()` loop of
`ObservableData::send_signal` (`src/observable.rs:91`): pop a subscriber,
and when it carries an `RxMemo` component (`entity_mut(sub)` panics on a
despawned id), take the component, execute it against the current stack,
and put it back (a net no-op on the component map). -/
def runStack : Nat → RxWorld V → List Nat → List Nat → RunOut V
  | _, w, [], log => .ok w log
  | 0, _, _ :: _, _ => .fuelOut
  | fuel + 1, w, s :: rest, log =>
    if s < w.next then
      match w.memo s with
      | none => runStack fuel w rest log
      | some md =>
        match memoExecute w rest s md with
        | none => .panic
        | some (w1, stack1) => runStack fuel w1 stack1 (log ++ [s])
    else .panic

/-- `ObservableData::send_signal` (`src/observable.rs:86`), reached from
`ReactiveContext::send_signal`: seed the work stack by updating the
target's value, then run the loop to completion. -/
def sendSignal (fuel : Nat) (w : RxWorld V) (target : Nat) (v : V) :
    RunOut V :=
  match updateValue w [] target v with
  | none => .panic
  | some (w1, stack) => runStack fuel w1 stack []

/-- `ReactiveContext::new_signal` → `Signal::new` →
`ObservableData::new`: spawn a fresh entity holding the initial value and
no subscribers. -/
def newSignal (w : RxWorld V) (v : V) : RxWorld V × Nat :=
  let e := w.next
  (setObs { w with next := w.next + 1 } e { data := v, subscribers := [] }, e)

/-- `ReactiveContext::new_memo` → `Memo::new` (`src/memo.rs:33`): spawn an
empty entity, build the `RxMemo`, execute it once against a scratch stack
that is then discarded, and insert the component. -/
def newMemo (w : RxWorld V) (inputs : List Nat) (f : List V → V) :
    Option (RxWorld V × Nat) :=
  let e := w.next
  let w1 := { w with next := w.next + 1 }
  match memoExecute w1 [] e ⟨inputs, f⟩ with
  | none => none
  | some (w2, _) =>
    some ({ w2 with memo := fun n => if n = e then some ⟨inputs, f⟩ else w2.memo n }, e)

/-- The world `ReactiveContext::default` starts from. -/
def emptyWorld (V : Type) : RxWorld V :=
  { next := 0, obs := fun _ => none, memo := fun _ => none
    eff := fun _ => false, queue := [] }

/-- Project the final world out of a run. -/
def runWorld : RunOut V → Option (RxWorld V)
  | .ok w _ => some w
  | _ => none

/-- Project the ghost execution log out of a run. -/
def runLog : RunOut V → Option (List Nat)
  | .ok _ log => some log
  | _ => none

/-- Number of queued deferred-effect thunks that belong to entity `s`. -/
def queueCountFor (w : RxWorld V) (s : Nat) : Nat :=
  (w.queue.filter (fun p => p.1 = s)).length

/-- Run a sequence of `ReactiveContext::send_signal` calls on the same
signal, left to right, propagating panics and fuel exhaustion and
concatenating the ghost logs. -/
def sendMany (fuel : Nat) (w : RxWorld V) (s : Nat) : List V → RunOut V
  | [] => .ok w []
  | v :: vs =>
    match sendSignal fuel w s v with
    | .ok w1 log1 =>
      match sendMany fuel w1 s vs with
      | .ok w2 log2 => .ok w2 (log1 ++ log2)
      | r => r
    | r => r

/-! ## Invariants of reactive worlds -/

/-- Entities at or above the spawn counter do not exist. -/
def Bounded (w : RxWorld V) : Prop :=
  ∀ e, w.next ≤ e → w.obs e = none ∧ w.memo e = none

/-- Well-formedness of the memo components: inputs are duplicate-free,
alive, and hold data; the memo entity itself is alive and holds data. -/
def MemoWF (w : RxWorld V) : Prop :=
  ∀ m md, w.memo m = some md →
    md.inputs.Nodup ∧ m < w.next ∧ (w.obs m).isSome = true ∧
    ∀ i ∈ md.inputs, i < w.next ∧ (w.obs i).isSome = true

/-- Every subscriber of a cell is a memo that names the cell among its
inputs. -/
def SubsWF (w : RxWorld V) : Prop :=
  ∀ e c, w.obs e = some c → ∀ s ∈ c.subscribers,
    ∃ md, w.memo s = some md ∧ e ∈ md.inputs

/-- Acyclicity of the dependency graph, witnessed by a height function
that strictly increases from a memo to each of its inputs. -/
def AcyclicHt (w : RxWorld V) (h : Nat → Nat) : Prop :=
  ∀ m md, w.memo m = some md → ∀ i ∈ md.inputs, h m < h i

/-- In worlds built through the public API, every memo's inputs were
created before the memo, so input ids are strictly smaller. -/
def Ordered (w : RxWorld V) : Prop :=
  ∀ m md, w.memo m = some md → ∀ i ∈ md.inputs, i < m

/-- No memo lists itself among its own inputs. -/
def NoSelfDep (w : RxWorld V) : Prop :=
  ∀ m md, w.memo m = some md → m ∉ md.inputs

/-- A memo is settled: its cached value is its derive function applied to
the current input values, and it is subscribed to every input. -/
def MemoGood (w : RxWorld V) (m : Nat) (md : MemoData V) : Prop :=
  (∃ vs, readVals w md.inputs = some vs ∧ dataOf w m = some (md.derive vs)) ∧
  ∀ i ∈ md.inputs, m ∈ subsOf w i

/-- Invariant of the propagation loop: every memo is either pending on the
work stack or settled. -/
def LoopInv (w : RxWorld V) (pend : List Nat) : Prop :=
  ∀ m md, w.memo m = some md → m ∈ pend ∨ MemoGood w m md

/-- Between public calls the work stack is empty, so every memo is
settled (invariant I2 of the spec). -/
def Consistent (w : RxWorld V) : Prop := LoopInv w []

/-! ## Denotation of an acyclic graph -/

/-- Sequence a partial valuation over a list of entities, in input
order. -/
def seqVals (f : Nat → Option V) : List Nat → Option (List V)
  | [] => some []
  | i :: rest =>
    match f i with
    | none => none
    | some v => (seqVals f rest).map (v :: ·)

/-- Fuelled denotation of a cell: unfold the memo derive functions down to
cells that carry no compute closure (the source signals), reading their
current values.  `fuel = w.next` is enough for worlds built through the
public API. -/
def denoteF (w : RxWorld V) : Nat → Nat → Option V
  | 0, e => dataOf w e
  | fuel + 1, e =>
    match w.memo e with
    | none => dataOf w e
    | some md => (seqVals (denoteF w fuel) md.inputs).map md.derive

/-- Worlds reachable through the public `ReactiveContext` surface:
`default`, `new_signal`, `new_memo` (on handles to existing cells), and
successful `send_signal` on a signal handle. -/
inductive Built : RxWorld V → Prop where
  | base : Built (emptyWorld V)
  | sig : ∀ {w : RxWorld V} {v : V}, Built w → Built (newSignal w v).1
  | mem : ∀ {w w' : RxWorld V} {inputs : List Nat} {f : List V → V} {e : Nat},
      Built w → inputs.Nodup →
      (∀ i ∈ inputs, i < w.next ∧ (w.obs i).isSome = true) →
      newMemo w inputs f = some (w', e) → Built w'
  | send : ∀ {w w' : RxWorld V} {s : Nat} {v : V} {n : Nat} {lg : List Nat},
      Built w → w.memo s = none → s < w.next →
      sendSignal n w s v = .ok w' lg → Built w'

/-! ## The deferred-effect queue and its batched drain (`src/lib.rs`) -/

variable {M Θ : Type}

/-- State seen by `ReactiveExtensionsPlugin::apply_deferred_effects`:
`main` stands for everything a thunk can touch except the
`RxDeferredEffects` stack itself (the main bevy world plus the reactive
store's components), and `queue` is the `RxDeferredEffects` stack. -/
structure FlushState (M Θ : Type) where
  main : M
  queue : List Θ

/-- Execute one boxed thunk.  A thunk is an arbitrary closure acting on
the two worlds; the only access any thunk has to the effect queue is
`RxDeferredEffects::push` (`src/effect.rs:85`), so its behaviour is a
transformation `act` of the non-queue state together with a list of
thunks appended to the queue. -/
def runThunk (act : Θ → M → M × List Θ) (t : Θ) (st : FlushState M Θ) :
    FlushState M Θ :=
  { main := (act t st.main).1, queue := st.queue ++ (act t st.main).2 }

/-- The `for effect in effects.drain(..)` loop, instrumented with the
ghost trace of executed thunks in execution order. -/
def drainGo (act : Θ → M → M × List Θ) :
    List Θ → FlushState M Θ → List Θ → FlushState M Θ × List Θ
  | [], st, tr => (st, tr)
  | t :: ts, st, tr => drainGo act ts (runThunk act t st) (tr ++ [t])

/-- `ReactiveExtensionsPlugin::apply_deferred_effects` (`src/lib.rs:39`):
`std::mem::take` the `RxDeferredEffects` stack, leaving it empty, then
drain the taken list front to back. -/
def applyDeferredEffects (act : Θ → M → M × List Θ) (s : FlushState M Θ) :
    FlushState M Θ × List Θ :=
  drainGo act s.queue { s with queue := [] } []

/-- Specification fold: the external state after executing a list of
thunks in list (insertion) order. -/
def mainAfter (act : Θ → M → M × List Θ) : List Θ → M → M
  | [], m => m
  | t :: ts, m => mainAfter act ts (act t m).1

/-- Specification fold: all thunks pushed while executing a list of
thunks in list order. -/
def pushesOf (act : Θ → M → M × List Θ) : List Θ → M → List Θ
  | [], _ => []
  | t :: ts, m => (act t m).2 ++ pushesOf act ts (act t m).1

/-! ## Concrete worlds used by witnesses and counterexamples -/

/-- Derive function of the depth-one memo in the diamond example:
successor of its single input. -/
def fA : List Nat → Nat := fun l => l.headD 0 + 1

/-- Derive function of the top memo in the diamond example: sum of its
two inputs. -/
def fM : List Nat → Nat := fun l => l.headD 0 + l.tail.headD 0

/-- `let x = ctx.new_signal(10)` — x is entity 0. -/
def dw1 : RxWorld Nat := (newSignal (emptyWorld Nat) 10).1

/-- `let a = ctx.new_memo((x,), fA)` — a is entity 1, value 11. -/
def dw2 : RxWorld Nat := ((newMemo dw1 [0] fA).getD (dw1, 0)).1

/-- `let m = ctx.new_memo((x, a), fM)` — m is entity 2, value 21.  The
diamond: m reads both x directly and a, which also reads x. -/
def dw3 : RxWorld Nat := ((newMemo dw2 [0, 1] fM).getD (dw2, 0)).1

/-- The world after `ctx.send_signal(x, 20)` on the diamond. -/
def dwF : RxWorld Nat := (runWorld (sendSignal 10 dw3 0 20)).getD dw3

/-- A world exhibiting a live memo entity (id 1, cached value 42) whose
single input entity (id 0) is alive but carries no `RxObservableData`
component of the expected type — the mistyped/missing-component case of
claim C7. -/
def wC7 : RxWorld Nat :=
  { next := 2
    obs := fun n => if n = 1 then some ⟨42, []⟩ else none
    memo := fun n => if n = 1 then some ⟨[0], fA⟩ else none
    eff := fun _ => false
    queue := [] }

/-- An effect-annotated signal world for claim C5: entity 0 is a signal
holding 10 with the `RxEffect` annotation and no subscribers. -/
def wC5 : RxWorld Nat :=
  { next := 1
    obs := fun n => if n = 0 then some ⟨10, []⟩ else none
    memo := fun _ => none
    eff := fun n => n == 0
    queue := [] }

/-! ## Basic lemmas about the store operations -/

theorem setObs_obs (w : RxWorld V) (e : Nat) (c : Cell V) (n : Nat) :
    (setObs w e c).obs n = if n = e then some c else w.obs n := rfl

theorem setObs_next (w : RxWorld V) (e : Nat) (c : Cell V) :
    (setObs w e c).next = w.next := rfl

theorem setObs_memo (w : RxWorld V) (e : Nat) (c : Cell V) :
    (setObs w e c).memo = w.memo := rfl

theorem setObs_eff (w : RxWorld V) (e : Nat) (c : Cell V) :
    (setObs w e c).eff = w.eff := rfl

theorem setObs_queue (w : RxWorld V) (e : Nat) (c : Cell V) :
    (setObs w e c).queue = w.queue := rfl

theorem dataOf_setObs_subs (w : RxWorld V) (i : Nat) (c : Cell V)
    (subs : List Nat) (h : w.obs i = some c) (e : Nat) :
    dataOf (setObs w i { c with subscribers := subs }) e = dataOf w e := by
  unfold dataOf
  rw [setObs_obs]
  by_cases he : e = i
  · subst he; rw [if_pos rfl, h]; rfl
  · rw [if_neg he]

theorem isSome_setObs (w : RxWorld V) (i : Nat) (c c' : Cell V)
    (h : w.obs i = some c) (e : Nat) :
    ((setObs w i c').obs e).isSome = (w.obs e).isSome := by
  rw [setObs_obs]
  by_cases he : e = i
  · subst he; rw [if_pos rfl, h]; rfl
  · rw [if_neg he]

theorem subscribeAll_keep (r : Nat) : ∀ (is : List Nat) (w : RxWorld V),
    (subscribeAll r w is).1.next = w.next ∧
    (subscribeAll r w is).1.memo = w.memo ∧
    (subscribeAll r w is).1.eff = w.eff ∧
    (subscribeAll r w is).1.queue = w.queue ∧
    (∀ e, dataOf (subscribeAll r w is).1 e = dataOf w e) ∧
    (∀ e, ((subscribeAll r w is).1.obs e).isSome = (w.obs e).isSome) := by
  intro is
  induction is with
  | nil => exact fun w => ⟨rfl, rfl, rfl, rfl, fun _ => rfl, fun _ => rfl⟩
  | cons i rest ih =>
    intro w
    cases h : w.obs i with
    | none => simp [subscribeAll, h]
    | some c =>
      obtain ⟨h1, h2, h3, h4, h5, h6⟩ :=
        ih (setObs w i { c with subscribers := c.subscribers ++ [r] })
      simp only [subscribeAll, h]
      exact ⟨h1, h2, h3, h4,
        fun e => (h5 e).trans (dataOf_setObs_subs w i c _ h e),
        fun e => (h6 e).trans (isSome_setObs w i c _ h e)⟩

theorem readVals_congr (w1 w2 : RxWorld V) : ∀ is : List Nat,
    (∀ i ∈ is, dataOf w1 i = dataOf w2 i) → readVals w1 is = readVals w2 is := by
  intro is
  induction is with
  | nil => intro _; rfl
  | cons i rest ih =>
    intro hd
    have hi : dataOf w1 i = dataOf w2 i := hd i (by simp)
    have hr := ih fun j hj => hd j (by simp [hj])
    unfold dataOf at hi
    simp only [readVals]
    cases h1 : w1.obs i with
    | none =>
      cases h2 : w2.obs i with
      | none => rfl
      | some c2 => rw [h1, h2] at hi; exact absurd hi (by simp)
    | some c1 =>
      cases h2 : w2.obs i with
      | none => rw [h1, h2] at hi; exact absurd hi (by simp)
      | some c2 =>
        rw [h1, h2] at hi
        have hdata : c1.data = c2.data := by simpa using hi
        rw [hr]; simp only [hdata]

theorem readVals_isSome (w : RxWorld V) : ∀ is : List Nat,
    (∀ i ∈ is, (w.obs i).isSome = true) → ∃ vs, readVals w is = some vs := by
  intro is
  induction is with
  | nil => exact fun _ => ⟨[], rfl⟩
  | cons i rest ih =>
    intro hd
    obtain ⟨vs, hvs⟩ := ih fun j hj => hd j (by simp [hj])
    have := hd i (by simp)
    cases h : w.obs i with
    | none => rw [h] at this; simp at this
    | some c => exact ⟨c.data :: vs, by unfold readVals; rw [h, hvs]; rfl⟩

theorem readVals_eq_seqVals (w : RxWorld V) : ∀ is : List Nat,
    readVals w is = seqVals (dataOf w) is := by
  intro is
  induction is with
  | nil => rfl
  | cons i rest ih =>
    simp only [readVals, seqVals]
    cases h : w.obs i with
    | none => simp [dataOf, h]
    | some c => simp [dataOf, h, ih]

theorem seqVals_congr (f g : Nat → Option V) : ∀ is : List Nat,
    (∀ i ∈ is, f i = g i) → seqVals f is = seqVals g is := by
  intro is
  induction is with
  | nil => intro _; rfl
  | cons i rest ih =>
    intro hd
    unfold seqVals
    rw [hd i (by simp), ih fun j hj => hd j (by simp [hj])]

theorem runStack_nil (fuel : Nat) (w : RxWorld V) (log : List Nat) :
    runStack fuel w [] log = .ok w log := by
  cases fuel <;> rfl

/-! ## Characterisation of `updateValue` -/

theorem pushEffect_obs (w : RxWorld V) (e : Nat) (v : V) :
    (pushEffect w e v).obs = w.obs := by
  unfold pushEffect; split <;> rfl

theorem pushEffect_next (w : RxWorld V) (e : Nat) (v : V) :
    (pushEffect w e v).next = w.next := by
  unfold pushEffect; split <;> rfl

theorem pushEffect_memo (w : RxWorld V) (e : Nat) (v : V) :
    (pushEffect w e v).memo = w.memo := by
  unfold pushEffect; split <;> rfl

theorem pushEffect_eff (w : RxWorld V) (e : Nat) (v : V) :
    (pushEffect w e v).eff = w.eff := by
  unfold pushEffect; split <;> rfl

theorem pushEffect_queue (w : RxWorld V) (e : Nat) (v : V) :
    ∃ extra, (pushEffect w e v).queue = w.queue ++ extra ∧
      ∀ p ∈ extra, p.1 = e := by
  unfold pushEffect; split
  · exact ⟨[(e, v)], rfl, by simp⟩
  · exact ⟨[], (List.append_nil _).symm, by simp⟩

theorem updateValue_same {w : RxWorld V} {e : Nat} {c : Cell V} {v : V}
    (h : w.obs e = some c) (hv : c.data = v) (σ : List Nat) :
    updateValue w σ e v = some (w, σ) := by
  simp [updateValue, h, hv]

theorem updateValue_diff {w : RxWorld V} {e : Nat} {c : Cell V} {v : V}
    (h : w.obs e = some c) (hv : ¬ c.data = v) (σ : List Nat) :
    updateValue w σ e v =
      some (pushEffect (setObs w e { data := v, subscribers := [] }) e v,
        c.subscribers.reverse ++ σ) := by
  simp [updateValue, h, hv]

theorem updateValue_new {w : RxWorld V} {e : Nat} {v : V}
    (h : w.obs e = none) (he : e < w.next) (σ : List Nat) :
    updateValue w σ e v =
      some (pushEffect (setObs w e { data := v, subscribers := [] }) e v, σ) := by
  simp [updateValue, h, he]

theorem updateValue_dead {w : RxWorld V} {e : Nat} {v : V}
    (h : w.obs e = none) (he : ¬ e < w.next) (σ : List Nat) :
    updateValue w σ e v = none := by
  simp [updateValue, h, he]

theorem updateValue_keep {w w1 : RxWorld V} {σ σ1 : List Nat} {e : Nat} {v : V}
    (hu : updateValue w σ e v = some (w1, σ1)) :
    w1.next = w.next ∧ w1.memo = w.memo ∧ w1.eff = w.eff ∧
    (∀ x, x ≠ e → w1.obs x = w.obs x) ∧
    dataOf w1 e = some v ∧
    (∃ extra, w1.queue = w.queue ++ extra ∧ ∀ p ∈ extra, p.1 = e) ∧
    (∃ pre, σ1 = pre ++ σ ∧ ∀ τ, updateValue w τ e v = some (w1, pre ++ τ)) := by
  cases h : w.obs e with
  | some c =>
    by_cases hv : c.data = v
    · rw [updateValue_same h hv] at hu
      obtain ⟨rfl, rfl⟩ : w = w1 ∧ σ = σ1 := by
        have := Option.some.injEq _ _ ▸ hu
        exact ⟨congrArg Prod.fst (Option.some.inj hu),
          congrArg Prod.snd (Option.some.inj hu)⟩
      refine ⟨rfl, rfl, rfl, fun _ _ => rfl, ?_, ⟨[], by simp, by simp⟩,
        ⟨[], rfl, fun τ => updateValue_same h hv τ⟩⟩
      simp [dataOf, h, hv]
    · rw [updateValue_diff h hv] at hu
      have hw : w1 = pushEffect (setObs w e { data := v, subscribers := [] }) e v :=
        (congrArg Prod.fst (Option.some.inj hu)).symm
      have hσ : σ1 = c.subscribers.reverse ++ σ :=
        (congrArg Prod.snd (Option.some.inj hu)).symm
      obtain ⟨extra, hq, hqe⟩ :=
        pushEffect_queue (setObs w e { data := v, subscribers := [] }) e v
      refine ⟨?_, ?_, ?_, ?_, ?_, ?_, ?_⟩
      · rw [hw, pushEffect_next, setObs_next]
      · rw [hw, pushEffect_memo, setObs_memo]
      · rw [hw, pushEffect_eff, setObs_eff]
      · intro x hx
        rw [hw]
        rw [show (pushEffect (setObs w e { data := v, subscribers := [] }) e v).obs
            = (setObs w e { data := v, subscribers := [] }).obs from pushEffect_obs _ _ _]
        rw [setObs_obs, if_neg hx]
      · rw [hw, dataOf,
          show (pushEffect (setObs w e { data := v, subscribers := [] }) e v).obs
            = (setObs w e { data := v, subscribers := [] }).obs from pushEffect_obs _ _ _,
          setObs_obs, if_pos rfl]
        rfl
      · exact ⟨extra, by rw [hw, hq, setObs_queue], hqe⟩
      · exact ⟨c.subscribers.reverse, hσ, fun τ => by
          rw [updateValue_diff h hv τ, hw]⟩
  | none =>
    by_cases he : e < w.next
    · rw [updateValue_new h he] at hu
      have hw : w1 = pushEffect (setObs w e { data := v, subscribers := [] }) e v :=
        (congrArg Prod.fst (Option.some.inj hu)).symm
      have hσ : σ1 = σ := (congrArg Prod.snd (Option.some.inj hu)).symm
      obtain ⟨extra, hq, hqe⟩ :=
        pushEffect_queue (setObs w e { data := v, subscribers := [] }) e v
      refine ⟨?_, ?_, ?_, ?_, ?_, ?_, ?_⟩
      · rw [hw, pushEffect_next, setObs_next]
      · rw [hw, pushEffect_memo, setObs_memo]
      · rw [hw, pushEffect_eff, setObs_eff]
      · intro x hx
        rw [hw]
        rw [show (pushEffect (setObs w e { data := v, subscribers := [] }) e v).obs
            = (setObs w e { data := v, subscribers := [] }).obs from pushEffect_obs _ _ _]
        rw [setObs_obs, if_neg hx]
      · rw [hw, dataOf,
          show (pushEffect (setObs w e { data := v, subscribers := [] }) e v).obs
            = (setObs w e { data := v, subscribers := [] }).obs from pushEffect_obs _ _ _,
          setObs_obs, if_pos rfl]
        rfl
      · exact ⟨extra, by rw [hw, hq, setObs_queue], hqe⟩
      · exact ⟨[], by rw [hσ]; rfl, fun τ => by rw [updateValue_new h he τ, hw]; rfl⟩
    · rw [updateValue_dead h he] at hu; cases hu

/-! ## Preservation facts for `memoExecute` and `runStack` -/

theorem readAndDerive_keep {w wR : RxWorld V} {e : Nat} {f : List V → V}
    {inputs : List Nat} {r : Option V}
    (hr : readAndDerive w e f inputs = some (wR, r)) :
    wR.next = w.next ∧ wR.memo = w.memo ∧ wR.eff = w.eff ∧
    wR.queue = w.queue ∧
    (∀ x, dataOf wR x = dataOf w x) ∧
    (∀ x, (wR.obs x).isSome = (w.obs x).isSome) := by
  unfold readAndDerive at hr
  split at hr
  · obtain ⟨h1, h2, h3, h4, h5, h6⟩ := subscribeAll_keep e inputs w
    split at hr
    · next wS hsa =>
        rw [hsa] at h1 h2 h3 h4 h5 h6
        have : wS = wR := congrArg Prod.fst (Option.some.inj hr)
        subst this
        exact ⟨h1, h2, h3, h4, h5, h6⟩
    · next wS hsa =>
        rw [hsa] at h1 h2 h3 h4 h5 h6
        split at hr
        · have : wS = wR := congrArg Prod.fst (Option.some.inj hr)
          subst this
          exact ⟨h1, h2, h3, h4, h5, h6⟩
        · have : wS = wR := congrArg Prod.fst (Option.some.inj hr)
          subst this
          exact ⟨h1, h2, h3, h4, h5, h6⟩
  · cases hr

theorem memoExecute_keep {w w1 : RxWorld V} {σ σ1 : List Nat} {e : Nat}
    {md : MemoData V} (hx : memoExecute w σ e md = some (w1, σ1)) :
    w1.next = w.next ∧ w1.memo = w.memo ∧ w1.eff = w.eff ∧
    (∀ x, x ≠ e → dataOf w1 x = dataOf w x) ∧
    (∀ x, x ≠ e → (w1.obs x).isSome = (w.obs x).isSome) ∧
    (∃ extra, w1.queue = w.queue ++ extra ∧ ∀ p ∈ extra, p.1 = e) ∧
    (∃ pre, σ1 = pre ++ σ ∧ ∀ τ, memoExecute w τ e md = some (w1, pre ++ τ)) := by
  unfold memoExecute at hx
  cases hr : readAndDerive w e md.derive md.inputs with
  | none => rw [hr] at hx; cases hx
  | some p =>
    rw [hr] at hx
    obtain ⟨wR, rv⟩ := p
    obtain ⟨h1, h2, h3, h4, h5, h6⟩ := readAndDerive_keep hr
    cases rv with
    | none =>
      obtain ⟨hww, hσσ⟩ : wR = w1 ∧ σ = σ1 :=
        ⟨congrArg Prod.fst (Option.some.inj hx), congrArg Prod.snd (Option.some.inj hx)⟩
      subst hww; subst hσσ
      exact ⟨h1, h2, h3, fun x _ => h5 x, fun x _ => h6 x,
        ⟨[], by simp [h4], by simp⟩,
        ⟨[], rfl, fun τ => by unfold memoExecute; rw [hr]; rfl⟩⟩
    | some v =>
      obtain ⟨u1, u2, u3, u4, u5, ⟨extra, hq, hqe⟩, ⟨pre, hpre, hall⟩⟩ :=
        updateValue_keep hx
      refine ⟨u1.trans h1, u2.trans h2, u3.trans h3, ?_, ?_, ?_, ?_⟩
      · intro x hx'
        rw [show dataOf w1 x = (w1.obs x).map Cell.data from rfl, u4 x hx']
        exact h5 x
      · intro x hx'
        rw [u4 x hx']
        exact h6 x
      · exact ⟨extra, by rw [hq, h4], hqe⟩
      · exact ⟨pre, hpre, fun τ => by unfold memoExecute; rw [hr]; exact hall τ⟩

theorem runStack_cons_dead {w : RxWorld V} {s : Nat}
    (hlt : ¬ s < w.next) (fuel : Nat) (rest log : List Nat) :
    runStack (fuel + 1) w (s :: rest) log = (.panic : RunOut V) := by
  simp only [runStack, if_neg hlt]

theorem runStack_cons_none {w : RxWorld V} {s : Nat}
    (hlt : s < w.next) (hm : w.memo s = none) (fuel : Nat) (rest log : List Nat) :
    runStack (fuel + 1) w (s :: rest) log = runStack fuel w rest log := by
  simp only [runStack, if_pos hlt, hm]

theorem runStack_cons_exec {w w1 : RxWorld V} {s : Nat} {md : MemoData V}
    {rest σ1 : List Nat}
    (hlt : s < w.next) (hm : w.memo s = some md)
    (hx : memoExecute w rest s md = some (w1, σ1)) (fuel : Nat) (log : List Nat) :
    runStack (fuel + 1) w (s :: rest) log = runStack fuel w1 σ1 (log ++ [s]) := by
  simp only [runStack, if_pos hlt, hm, hx]

theorem runStack_cons_panic {w : RxWorld V} {s : Nat} {md : MemoData V}
    {rest : List Nat}
    (hlt : s < w.next) (hm : w.memo s = some md)
    (hx : memoExecute w rest s md = none) (fuel : Nat) (log : List Nat) :
    runStack (fuel + 1) w (s :: rest) log = (.panic : RunOut V) := by
  simp only [runStack, if_pos hlt, hm, hx]

theorem runStack_mono : ∀ (n : Nat) (w : RxWorld V) (σ log : List Nat)
    (w1 : RxWorld V) (lg : List Nat) (m : Nat),
    runStack n w σ log = .ok w1 lg → n ≤ m → runStack m w σ log = .ok w1 lg := by
  intro n
  induction n with
  | zero =>
    intro w σ log w1 lg m h _
    cases σ with
    | nil => rw [runStack_nil] at h; rw [runStack_nil]; exact h
    | cons s rest => cases h
  | succ n ih =>
    intro w σ log w1 lg m h hnm
    cases σ with
    | nil => rw [runStack_nil] at h; rw [runStack_nil]; exact h
    | cons s rest =>
      obtain ⟨m', rfl⟩ : ∃ m', m = m' + 1 := ⟨m - 1, by omega⟩
      by_cases hlt : s < w.next
      · cases hm : w.memo s with
        | none =>
          rw [runStack_cons_none hlt hm] at h
          rw [runStack_cons_none hlt hm]
          exact ih _ _ _ _ _ _ h (by omega)
        | some md =>
          cases hx : memoExecute w rest s md with
          | none => rw [runStack_cons_panic hlt hm hx] at h; cases h
          | some p =>
            obtain ⟨wm, σm⟩ := p
            rw [runStack_cons_exec hlt hm hx] at h
            rw [runStack_cons_exec hlt hm hx]
            exact ih _ _ _ _ _ _ h (by omega)
      · rw [runStack_cons_dead hlt] at h; cases h

theorem runStack_append : ∀ (n1 : Nat) (w : RxWorld V) (σ1 log : List Nat)
    (w2 : RxWorld V) (lg2 : List Nat),
    runStack n1 w σ1 log = .ok w2 lg2 →
    ∀ (σ2 : List Nat) (n2 : Nat) (w3 : RxWorld V) (lg3 : List Nat),
      runStack n2 w2 σ2 lg2 = .ok w3 lg3 →
      runStack (n1 + n2) w (σ1 ++ σ2) log = .ok w3 lg3 := by
  intro n1
  induction n1 with
  | zero =>
    intro w σ1 log w2 lg2 h σ2 n2 w3 lg3 h2
    cases σ1 with
    | nil =>
      rw [runStack_nil] at h
      obtain ⟨rfl, rfl⟩ : w = w2 ∧ log = lg2 := by cases h; exact ⟨rfl, rfl⟩
      simpa using runStack_mono n2 w σ2 log w3 lg3 (0 + n2) h2 (by omega)
    | cons s rest => cases h
  | succ n ih =>
    intro w σ1 log w2 lg2 h σ2 n2 w3 lg3 h2
    cases σ1 with
    | nil =>
      rw [runStack_nil] at h
      obtain ⟨rfl, rfl⟩ : w = w2 ∧ log = lg2 := by cases h; exact ⟨rfl, rfl⟩
      simpa using runStack_mono n2 w σ2 log w3 lg3 (n + 1 + n2) h2 (by omega)
    | cons s rest =>
      rw [List.cons_append, show n + 1 + n2 = (n + n2) + 1 from by omega]
      by_cases hlt : s < w.next
      · cases hm : w.memo s with
        | none =>
          rw [runStack_cons_none hlt hm] at h
          rw [runStack_cons_none hlt hm]
          exact ih w rest log w2 lg2 h σ2 n2 w3 lg3 h2
        | some md =>
          cases hx : memoExecute w rest s md with
          | none => rw [runStack_cons_panic hlt hm hx] at h; cases h
          | some p =>
            obtain ⟨wm, σm⟩ := p
            rw [runStack_cons_exec hlt hm hx] at h
            obtain ⟨-, -, -, -, -, -, ⟨pre, hpre, hall⟩⟩ := memoExecute_keep hx
            rw [runStack_cons_exec hlt hm (hall (rest ++ σ2))]
            subst hpre
            have := ih wm (pre ++ rest) (log ++ [s]) w2 lg2 h σ2 n2 w3 lg3 h2
            simpa [List.append_assoc] using this
      · rw [runStack_cons_dead hlt] at h; cases h

theorem queueCountFor_extend {w1 w : RxWorld V} {s e : Nat}
    {extra : List (Nat × V)} (hq : w1.queue = w.queue ++ extra)
    (hextra : ∀ p ∈ extra, p.1 = e) (hne : e ≠ s) :
    queueCountFor w1 s = queueCountFor w s := by
  unfold queueCountFor
  rw [hq, List.filter_append]
  have hnil : extra.filter (fun p => decide (p.1 = s)) = [] := by
    rw [List.filter_eq_nil_iff]
    intro p hp
    simp [hextra p hp, hne]
  rw [hnil, List.append_nil]

theorem runStack_keep : ∀ (n : Nat) (w : RxWorld V) (σ log : List Nat)
    (w1 : RxWorld V) (lg : List Nat),
    runStack n w σ log = .ok w1 lg →
    w1.next = w.next ∧ w1.memo = w.memo ∧ w1.eff = w.eff ∧
    ∀ s, w.memo s = none →
      dataOf w1 s = dataOf w s ∧ (w1.obs s).isSome = (w.obs s).isSome ∧
      queueCountFor w1 s = queueCountFor w s := by
  intro n
  induction n with
  | zero =>
    intro w σ log w1 lg h
    cases σ with
    | nil =>
      rw [runStack_nil] at h
      cases h
      exact ⟨rfl, rfl, rfl, fun _ _ => ⟨rfl, rfl, rfl⟩⟩
    | cons s rest => cases h
  | succ n ih =>
    intro w σ log w1 lg h
    cases σ with
    | nil =>
      rw [runStack_nil] at h
      cases h
      exact ⟨rfl, rfl, rfl, fun _ _ => ⟨rfl, rfl, rfl⟩⟩
    | cons s rest =>
      by_cases hlt : s < w.next
      · cases hm : w.memo s with
        | none =>
          rw [runStack_cons_none hlt hm] at h
          exact ih _ _ _ _ _ h
        | some md =>
          cases hx : memoExecute w rest s md with
          | none => rw [runStack_cons_panic hlt hm hx] at h; cases h
          | some p =>
            obtain ⟨wm, σm⟩ := p
            rw [runStack_cons_exec hlt hm hx] at h
            obtain ⟨k1, k2, k3, k4, k5, ⟨extra, hq, hqe⟩, -⟩ := memoExecute_keep hx
            obtain ⟨j1, j2, j3, j4⟩ := ih _ _ _ _ _ h
            refine ⟨j1.trans k1, j2.trans k2, j3.trans k3, ?_⟩
            intro t ht
            have htm : wm.memo t = none := by rw [k2]; exact ht
            have hts : t ≠ s := by
              intro hts2; rw [hts2, hm] at ht; cases ht
            obtain ⟨p1, p2, p3⟩ := j4 t htm
            refine ⟨p1.trans (k4 t hts), p2.trans (k5 t hts), p3.trans ?_⟩
            exact queueCountFor_extend hq hqe (fun hse => hts hse.symm)
      · rw [runStack_cons_dead hlt] at h; cases h

/-! ## The dependency recorder on well-formed inputs -/

theorem subsOf_some {w : RxWorld V} {i : Nat} {c : Cell V}
    (h : w.obs i = some c) : subsOf w i = c.subscribers := by
  unfold subsOf; rw [h]; rfl

theorem subscribeAll_true (r : Nat) : ∀ (is : List Nat) (w : RxWorld V),
    (∀ i ∈ is, (w.obs i).isSome = true) → is.Nodup →
    (subscribeAll r w is).2 = true ∧
    ∀ x, (subscribeAll r w is).1.obs x =
      if x ∈ is then
        (w.obs x).map (fun c => { c with subscribers := c.subscribers ++ [r] })
      else w.obs x := by
  intro is
  induction is with
  | nil =>
    intro w _ _
    exact ⟨rfl, fun x => by simp [subscribeAll]⟩
  | cons i rest ih =>
    intro w hsome hnd
    have hi := hsome i (by simp)
    cases h : w.obs i with
    | none => rw [h] at hi; cases hi
    | some c =>
      have hnotin : i ∉ rest := (List.nodup_cons.mp hnd).1
      have hndr : rest.Nodup := (List.nodup_cons.mp hnd).2
      have hsome2 : ∀ j ∈ rest,
          ((setObs w i { c with subscribers := c.subscribers ++ [r] }).obs j).isSome
            = true := by
        intro j hj
        rw [setObs_obs]
        by_cases hji : j = i
        · rw [if_pos hji]; rfl
        · rw [if_neg hji]; exact hsome j (by simp [hj])
      obtain ⟨ht, hobs⟩ :=
        ih (setObs w i { c with subscribers := c.subscribers ++ [r] }) hsome2 hndr
      have hstep : subscribeAll r w (i :: rest)
          = subscribeAll r (setObs w i { c with subscribers := c.subscribers ++ [r] })
              rest := by
        simp [subscribeAll, h]
      rw [hstep]
      refine ⟨ht, fun x => ?_⟩
      rw [hobs x]
      by_cases hxr : x ∈ rest
      · have hxi : x ≠ i := fun hxi => hnotin (hxi ▸ hxr)
        rw [if_pos hxr, if_pos (by simp [hxr]), setObs_obs, if_neg hxi]
      · by_cases hxi : x = i
        · subst hxi
          rw [if_neg hxr, if_pos (by simp), setObs_obs, if_pos rfl, h]
          rfl
        · rw [if_neg hxr, if_neg (by simp [hxi, hxr]), setObs_obs, if_neg hxi]

theorem readAndDerive_run {w wS : RxWorld V} {e : Nat} {f : List V → V}
    {inputs : List Nat} {vs : List V}
    (hguard : inputs.Nodup ∧ ∀ i ∈ inputs, i < w.next)
    (hsa : subscribeAll e w inputs = (wS, true))
    (hvs : readVals wS inputs = some vs) :
    readAndDerive w e f inputs = some (wS, some (f vs)) := by
  unfold readAndDerive
  rw [if_pos hguard, hsa]
  simp only [hvs]

/-- One execution of a memo's compute closure inside the propagation loop,
on a well-formed world: the recorder succeeds, the pushed stack entries
are exactly the taken subscribers (all of them dependents of the executed
memo), well-formedness is preserved, and every memo is still either
pending or settled. -/
theorem memoExecute_step {w : RxWorld V} {e : Nat} {md : MemoData V}
    (hWF : MemoWF w) (hS : SubsWF w) (hm : w.memo e = some md) :
    ∃ w1 pre,
      (∀ τ, memoExecute w τ e md = some (w1, pre ++ τ)) ∧
      w1.next = w.next ∧ w1.memo = w.memo ∧ w1.eff = w.eff ∧
      MemoWF w1 ∧ SubsWF w1 ∧
      (∀ p ∈ pre, ∃ md2, w.memo p = some md2 ∧ e ∈ md2.inputs) ∧
      (Bounded w → Bounded w1) ∧
      (e ∉ md.inputs → ∀ X, LoopInv w (e :: X) → LoopInv w1 (pre ++ X)) := by
  obtain ⟨hnd, helt, hesome, hin⟩ := hWF e md hm
  obtain ⟨htrue, hobs⟩ := subscribeAll_true e md.inputs w (fun i hi => (hin i hi).2) hnd
  obtain ⟨hn, hmo, hef, hq, hdataS, hsomeS⟩ := subscribeAll_keep e md.inputs w
  have hsa : subscribeAll e w md.inputs = ((subscribeAll e w md.inputs).1, true) := by
    rw [← htrue]
  obtain ⟨vs, hvsw⟩ := readVals_isSome w md.inputs (fun i hi => (hin i hi).2)
  have hveq : readVals (subscribeAll e w md.inputs).1 md.inputs
      = readVals w md.inputs :=
    readVals_congr _ w md.inputs (fun i _ => hdataS i)
  have hvs : readVals (subscribeAll e w md.inputs).1 md.inputs = some vs :=
    hveq.trans hvsw
  have hguard : md.inputs.Nodup ∧ ∀ i ∈ md.inputs, i < w.next :=
    ⟨hnd, fun i hi => (hin i hi).1⟩
  have hrd := readAndDerive_run (f := md.derive) hguard hsa hvs
  have hesomeS : ((subscribeAll e w md.inputs).1.obs e).isSome = true :=
    (hsomeS e).trans hesome
  obtain ⟨cE, hcE⟩ := Option.isSome_iff_exists.mp hesomeS
  have hMemoWF_S : MemoWF (subscribeAll e w md.inputs).1 := by
    intro m2 md2 hm2
    rw [hmo] at hm2
    obtain ⟨a, b, c2, d⟩ := hWF m2 md2 hm2
    exact ⟨a, by rw [hn]; exact b, (hsomeS m2).trans c2,
      fun i hi => ⟨by rw [hn]; exact (d i hi).1, (hsomeS i).trans (d i hi).2⟩⟩
  have hSubsWF_S : SubsWF (subscribeAll e w md.inputs).1 := by
    intro x c hx s2 hs2
    rw [hobs x] at hx
    by_cases hxin : x ∈ md.inputs
    · rw [if_pos hxin] at hx
      cases hwx : w.obs x with
      | none => rw [hwx] at hx; cases hx
      | some c0 =>
        rw [hwx] at hx
        have hc : c = { c0 with subscribers := c0.subscribers ++ [e] } :=
          (Option.some.inj hx).symm
        subst hc
        rcases List.mem_append.mp hs2 with h1 | h2
        · obtain ⟨md2, hmd2, hxi⟩ := hS x c0 hwx s2 h1
          exact ⟨md2, by rw [hmo]; exact hmd2, hxi⟩
        · have hse : s2 = e := by simpa using h2
          subst hse
          exact ⟨md, by rw [hmo]; exact hm, hxin⟩
    · rw [if_neg hxin] at hx
      obtain ⟨md2, hmd2, hxi⟩ := hS x c hx s2 hs2
      exact ⟨md2, by rw [hmo]; exact hmd2, hxi⟩
  have hBnd_S : Bounded w → Bounded (subscribeAll e w md.inputs).1 := by
    intro hB x hx
    rw [hn] at hx
    have hxin : x ∉ md.inputs := fun hxin => by
      have := (hin x hxin).1; omega
    constructor
    · rw [hobs x, if_neg hxin]
      exact (hB x hx).1
    · rw [hmo]
      exact (hB x hx).2
  have hsubsS : ∀ i m2, m2 ∈ subsOf w i →
      m2 ∈ subsOf (subscribeAll e w md.inputs).1 i := by
    intro i m2 hmem
    unfold subsOf at hmem ⊢
    rw [hobs i]
    by_cases hiin : i ∈ md.inputs
    · rw [if_pos hiin]
      cases hwi : w.obs i with
      | none =>
        rw [hwi] at hmem
        exact absurd hmem (List.not_mem_nil m2)
      | some c0 =>
        rw [hwi] at hmem
        exact List.mem_append_left _ hmem
    · rw [if_neg hiin]; exact hmem
  have hsubinS : ∀ i ∈ md.inputs, e ∈ subsOf (subscribeAll e w md.inputs).1 i := by
    intro i hi
    unfold subsOf
    rw [hobs i, if_pos hi]
    cases hwi : w.obs i with
    | none =>
      have := (hin i hi).2; rw [hwi] at this; cases this
    | some c0 => exact List.mem_append_right _ (by simp)
  have hgoodS : ∀ m2 md2, w.memo m2 = some md2 → MemoGood w m2 md2 →
      MemoGood (subscribeAll e w md.inputs).1 m2 md2 := by
    intro m2 md2 _ hgood
    obtain ⟨⟨vs2, hvs2, hdata2⟩, hsub2⟩ := hgood
    refine ⟨⟨vs2, ?_, ?_⟩, ?_⟩
    · exact (readVals_congr _ w md2.inputs (fun i _ => hdataS i)).trans hvs2
    · exact (hdataS m2).trans hdata2
    · exact fun i hi => hsubsS i m2 (hsub2 i hi)
  by_cases hdiff : cE.data = md.derive vs
  · refine ⟨(subscribeAll e w md.inputs).1, [], ?_, hn, hmo, hef,
      hMemoWF_S, hSubsWF_S, by simp, hBnd_S, ?_⟩
    · intro τ
      unfold memoExecute
      rw [hrd]
      show updateValue (subscribeAll e w md.inputs).1 τ e (md.derive vs)
        = some ((subscribeAll e w md.inputs).1, [] ++ τ)
      rw [updateValue_same hcE hdiff τ]
      rfl
    · intro hein X hInv m2 md2 hm2
      rw [hmo] at hm2
      by_cases hme : m2 = e
      · subst m2
        have hmdeq : md2 = md := by
          rw [hm] at hm2; exact (Option.some.inj hm2).symm
        subst md2
        right
        refine ⟨⟨vs, hvs, ?_⟩, hsubinS⟩
        rw [dataOf, hcE]
        simp [hdiff]
      · rcases hInv m2 md2 hm2 with hmem | hgood
        · rcases List.mem_cons.mp hmem with h1 | h2
          · exact absurd h1 hme
          · exact Or.inl (by simpa using h2)
        · exact Or.inr (hgoodS m2 md2 hm2 hgood)
  · refine ⟨pushEffect (setObs (subscribeAll e w md.inputs).1 e
        { data := md.derive vs, subscribers := [] }) e (md.derive vs),
      cE.subscribers.reverse, ?_, ?_, ?_, ?_, ?_, ?_, ?_, ?_, ?_⟩
    · intro τ
      unfold memoExecute
      rw [hrd]
      show updateValue (subscribeAll e w md.inputs).1 τ e (md.derive vs) = _
      rw [updateValue_diff hcE hdiff τ]
    · rw [pushEffect_next, setObs_next, hn]
    · rw [pushEffect_memo, setObs_memo, hmo]
    · rw [pushEffect_eff, setObs_eff, hef]
    · intro m2 md2 hm2
      rw [pushEffect_memo, setObs_memo, hmo] at hm2
      obtain ⟨a, b, c2, d⟩ := hWF m2 md2 hm2
      constructor
      · exact a
      constructor
      · rw [pushEffect_next, setObs_next, hn]; exact b
      constructor
      · rw [pushEffect_obs, setObs_obs]
        by_cases hm2e : m2 = e
        · rw [if_pos hm2e]; rfl
        · rw [if_neg hm2e]; exact (hsomeS m2).trans c2
      · intro i hi
        constructor
        · rw [pushEffect_next, setObs_next, hn]; exact (d i hi).1
        · rw [pushEffect_obs, setObs_obs]
          by_cases hie : i = e
          · rw [if_pos hie]; rfl
          · rw [if_neg hie]; exact (hsomeS i).trans (d i hi).2
    · intro x c hx s2 hs2
      rw [pushEffect_obs, setObs_obs] at hx
      by_cases hxe : x = e
      · rw [if_pos hxe] at hx
        have hc : c = { data := md.derive vs, subscribers := [] } :=
          (Option.some.inj hx).symm
        subst hc
        simp at hs2
      · rw [if_neg hxe] at hx
        obtain ⟨md2, hmd2, hxi⟩ := hSubsWF_S x c hx s2 hs2
        exact ⟨md2, by rw [pushEffect_memo, setObs_memo]; exact hmd2, hxi⟩
    · intro p hp
      have hp2 : p ∈ cE.subscribers := List.mem_reverse.mp hp
      obtain ⟨md2, hmd2, hxi⟩ := hSubsWF_S e cE hcE p hp2
      rw [hmo] at hmd2
      exact ⟨md2, hmd2, hxi⟩
    · intro hB
      have hBS := hBnd_S hB
      intro x hx
      rw [pushEffect_next, setObs_next] at hx
      constructor
      · rw [pushEffect_obs, setObs_obs]
        have hxe : x ≠ e := by
          intro hxe; subst hxe
          rw [hn] at hx; omega
        rw [if_neg hxe]
        exact (hBS x hx).1
      · rw [pushEffect_memo, setObs_memo]
        exact (hBS x hx).2
    · intro hein X hInv m2 md2 hm2
      rw [pushEffect_memo, setObs_memo, hmo] at hm2
      have hdata1 : ∀ x, x ≠ e →
          dataOf (pushEffect (setObs (subscribeAll e w md.inputs).1 e
            { data := md.derive vs, subscribers := [] }) e (md.derive vs)) x
          = dataOf (subscribeAll e w md.inputs).1 x := by
        intro x hxe
        rw [dataOf, dataOf, pushEffect_obs, setObs_obs, if_neg hxe]
      have hsubs1 : ∀ i, i ≠ e →
          subsOf (pushEffect (setObs (subscribeAll e w md.inputs).1 e
            { data := md.derive vs, subscribers := [] }) e (md.derive vs)) i
          = subsOf (subscribeAll e w md.inputs).1 i := by
        intro i hie
        rw [subsOf, subsOf, pushEffect_obs, setObs_obs, if_neg hie]
      by_cases hme : m2 = e
      · subst m2
        have hmdeq : md2 = md := by
          rw [hm] at hm2; exact (Option.some.inj hm2).symm
        subst md2
        right
        refine ⟨⟨vs, ?_, ?_⟩, ?_⟩
        · refine (readVals_congr _ _ md.inputs ?_).trans hvs
          intro i hi
          exact hdata1 i (fun hie => hein (hie ▸ hi))
        · rw [dataOf, pushEffect_obs, setObs_obs, if_pos rfl]
          rfl
        · intro i hi
          have hie : i ≠ e := fun hie => hein (hie ▸ hi)
          rw [hsubs1 i hie]
          exact hsubinS i hi
      · rcases hInv m2 md2 hm2 with hmem | hgood
        · rcases List.mem_cons.mp hmem with h1 | h2
          · exact absurd h1 hme
          · exact Or.inl (List.mem_append_right _ h2)
        · by_cases heim : e ∈ md2.inputs
          · left
            apply List.mem_append_left
            have hmsub : m2 ∈ subsOf w e := hgood.2 e heim
            have hwse : (subscribeAll e w md.inputs).1.obs e = w.obs e := by
              rw [hobs e, if_neg hein]
            have hwcE : w.obs e = some cE := hwse ▸ hcE
            rw [subsOf_some hwcE] at hmsub
            exact List.mem_reverse.mpr hmsub
          · right
            obtain ⟨⟨vs2, hvs2, hdata2⟩, hsub2⟩ := hgoodS m2 md2 hm2 hgood
            refine ⟨⟨vs2, ?_, ?_⟩, ?_⟩
            · refine (readVals_congr _ _ md2.inputs ?_).trans hvs2
              intro i hi
              exact hdata1 i (fun hie => heim (hie ▸ hi))
            · exact (hdata1 m2 hme).trans hdata2
            · intro i hi
              have hie : i ≠ e := fun hie => heim (hie ▸ hi)
              rw [hsubs1 i hie]
              exact hsub2 i hi

theorem noSelfDep_of_acyclic {w : RxWorld V} {h : Nat → Nat}
    (hA : AcyclicHt w h) : NoSelfDep w :=
  fun m md hm hmem => absurd (hA m md hm m hmem) (lt_irrefl _)

theorem memoEq_noSelfDep {w w2 : RxWorld V} (he : w2.memo = w.memo)
    (hN : NoSelfDep w) : NoSelfDep w2 := by
  intro m md hm; rw [he] at hm; exact hN m md hm

theorem memoEq_acyclic {w w2 : RxWorld V} {h : Nat → Nat}
    (he : w2.memo = w.memo) (hA : AcyclicHt w h) : AcyclicHt w2 h := by
  intro m md hm; rw [he] at hm; exact hA m md hm

/-- Running the loop from an `ok` run preserves well-formedness and the
pending-or-settled invariant. -/
theorem runStack_inv : ∀ (n : Nat) (w : RxWorld V) (σ log : List Nat)
    (w1 : RxWorld V) (lg : List Nat),
    runStack n w σ log = .ok w1 lg →
    MemoWF w → SubsWF w → NoSelfDep w →
    MemoWF w1 ∧ SubsWF w1 ∧ (Bounded w → Bounded w1) ∧
    ∀ X, LoopInv w (σ ++ X) → LoopInv w1 X := by
  intro n
  induction n with
  | zero =>
    intro w σ log w1 lg h hWF hS hN
    cases σ with
    | nil =>
      rw [runStack_nil] at h
      cases h
      exact ⟨hWF, hS, fun hB => hB, fun X hInv => hInv⟩
    | cons s rest => cases h
  | succ n ih =>
    intro w σ log w1 lg h hWF hS hN
    cases σ with
    | nil =>
      rw [runStack_nil] at h
      cases h
      exact ⟨hWF, hS, fun hB => hB, fun X hInv => hInv⟩
    | cons s rest =>
      by_cases hlt : s < w.next
      · cases hm : w.memo s with
        | none =>
          rw [runStack_cons_none hlt hm] at h
          obtain ⟨a, b, c2, d⟩ := ih _ _ _ _ _ h hWF hS hN
          refine ⟨a, b, c2, ?_⟩
          intro X hInv
          apply d X
          intro m2 md2 hm2
          rcases hInv m2 md2 hm2 with hmem | hgood
          · rcases List.mem_cons.mp hmem with h1 | h2
            · rw [h1, hm] at hm2; cases hm2
            · exact Or.inl h2
          · exact Or.inr hgood
        | some md =>
          obtain ⟨wm, pre, hexec, hn2, hmo, hef, hWFm, hSm, hdep, hBm, hInvm⟩ :=
            memoExecute_step hWF hS hm
          rw [runStack_cons_exec hlt hm (hexec rest)] at h
          have hNm : NoSelfDep wm := memoEq_noSelfDep hmo hN
          obtain ⟨a, b, c2, d⟩ := ih _ _ _ _ _ h hWFm hSm hNm
          refine ⟨a, b, fun hB => c2 (hBm hB), ?_⟩
          intro X hInv
          have hstep := hInvm (hN s md hm) (rest ++ X) hInv
          have : LoopInv wm ((pre ++ rest) ++ X) := by
            rw [List.append_assoc]; exact hstep
          exact d X this
      · rw [runStack_cons_dead hlt] at h; cases h

/-- Termination of the propagation loop on acyclic graphs: every stack
whose entries lie below a height bound empties with enough fuel.  Strong
induction on the bound, with an inner induction on the stack: executing
the top entry pushes only entries of strictly smaller height. -/
theorem runStack_total (h : Nat → Nat) : ∀ (K : Nat) (σ : List Nat)
    (w : RxWorld V) (log : List Nat),
    MemoWF w → SubsWF w → AcyclicHt w h →
    (∀ x ∈ σ, x < w.next ∧ h x < K) →
    ∃ n w1 lg, runStack n w σ log = .ok w1 lg := by
  intro K
  induction K with
  | zero =>
    intro σ w log _ _ _ hb
    cases σ with
    | nil => exact ⟨0, w, log, runStack_nil 0 w log⟩
    | cons s rest => exact absurd (hb s (by simp)).2 (by omega)
  | succ K ihK =>
    intro σ
    induction σ with
    | nil =>
      intro w log _ _ _ _
      exact ⟨0, w, log, runStack_nil 0 w log⟩
    | cons s rest ihσ =>
      intro w log hWF hS hA hb
      have hslt := (hb s (by simp)).1
      cases hm : w.memo s with
      | none =>
        obtain ⟨n, w1, lg, hrun⟩ :=
          ihσ w log hWF hS hA (fun x hx => hb x (by simp [hx]))
        exact ⟨n + 1, w1, lg, by rw [runStack_cons_none hslt hm]; exact hrun⟩
      | some md =>
        obtain ⟨wm, pre, hexec, hn2, hmo, hef, hWFm, hSm, hdep, hBm, hInvm⟩ :=
          memoExecute_step hWF hS hm
        have hAm : AcyclicHt wm h := memoEq_acyclic hmo hA
        have hbpre : ∀ p ∈ pre, p < wm.next ∧ h p < K := by
          intro p hp
          obtain ⟨md2, hmd2, hsin⟩ := hdep p hp
          have hps : h p < h s := hA p md2 hmd2 s hsin
          have hpn : p < w.next := (hWF p md2 hmd2).2.1
          have hsK : h s < K + 1 := (hb s (by simp)).2
          exact ⟨by rw [hn2]; exact hpn, by omega⟩
        obtain ⟨n1, w2, lg2, hrun1⟩ := ihK pre wm (log ++ [s]) hWFm hSm hAm hbpre
        obtain ⟨j1, j2, -, -⟩ := runStack_keep n1 wm pre (log ++ [s]) w2 lg2 hrun1
        have hNm : NoSelfDep wm := noSelfDep_of_acyclic hAm
        obtain ⟨hWF2, hS2, -, -⟩ :=
          runStack_inv n1 wm pre (log ++ [s]) w2 lg2 hrun1 hWFm hSm hNm
        have hA2 : AcyclicHt w2 h := memoEq_acyclic (j2.trans hmo) hA
        have hb2 : ∀ x ∈ rest, x < w2.next ∧ h x < K + 1 := by
          intro x hx
          obtain ⟨hx1, hx2⟩ := hb x (by simp [hx])
          exact ⟨by rw [j1, hn2]; exact hx1, hx2⟩
        obtain ⟨n2, w3, lg3, hrun2⟩ := ihσ w2 lg2 hWF2 hS2 hA2 hb2
        refine ⟨n1 + n2 + 1, w3, lg3, ?_⟩
        rw [runStack_cons_exec hslt hm (hexec rest)]
        exact runStack_append n1 wm pre (log ++ [s]) w2 lg2 hrun1 rest n2 w3 lg3 hrun2

/-- The seeding `update_value` of `send_signal` on a live target: it
succeeds, pushes only dependents of the target, preserves
well-formedness, and (when the target is a plain signal and the world was
consistent) re-establishes the pending-or-settled invariant. -/
theorem updateValue_init {w : RxWorld V} {s : Nat} {v : V}
    (hWF : MemoWF w) (hS : SubsWF w) (hs : s < w.next) :
    ∃ w1 σ, updateValue w [] s v = some (w1, σ) ∧
      w1.next = w.next ∧ w1.memo = w.memo ∧ w1.eff = w.eff ∧
      MemoWF w1 ∧ SubsWF w1 ∧ (Bounded w → Bounded w1) ∧
      (∀ p ∈ σ, ∃ md2, w.memo p = some md2 ∧ s ∈ md2.inputs) ∧
      (w.memo s = none → Consistent w → LoopInv w1 σ) := by
  cases hc : w.obs s with
  | some c =>
    by_cases hv : c.data = v
    · refine ⟨w, [], updateValue_same hc hv [], rfl, rfl, rfl, hWF, hS,
        fun hB => hB, by simp, ?_⟩
      intro _ hC m2 md2 hm2
      exact hC m2 md2 hm2
    · refine ⟨pushEffect (setObs w s { data := v, subscribers := [] }) s v,
        c.subscribers.reverse, by simpa using updateValue_diff hc hv [],
        ?_, ?_, ?_, ?_, ?_, ?_, ?_, ?_⟩
      · rw [pushEffect_next, setObs_next]
      · rw [pushEffect_memo, setObs_memo]
      · rw [pushEffect_eff, setObs_eff]
      · intro m2 md2 hm2
        rw [pushEffect_memo, setObs_memo] at hm2
        obtain ⟨a, b, c2, d⟩ := hWF m2 md2 hm2
        refine ⟨a, ?_, ?_, ?_⟩
        · rw [pushEffect_next, setObs_next]; exact b
        · rw [pushEffect_obs, setObs_obs]
          by_cases hm2s : m2 = s
          · rw [if_pos hm2s]; rfl
          · rw [if_neg hm2s]; exact c2
        · intro i hi
          refine ⟨?_, ?_⟩
          · rw [pushEffect_next, setObs_next]; exact (d i hi).1
          · rw [pushEffect_obs, setObs_obs]
            by_cases his : i = s
            · rw [if_pos his]; rfl
            · rw [if_neg his]; exact (d i hi).2
      · intro x cx hx s2 hs2
        rw [pushEffect_obs, setObs_obs] at hx
        by_cases hxs : x = s
        · rw [if_pos hxs] at hx
          have : cx = { data := v, subscribers := [] } := (Option.some.inj hx).symm
          subst this
          simp at hs2
        · rw [if_neg hxs] at hx
          obtain ⟨md2, hmd2, hxi⟩ := hS x cx hx s2 hs2
          exact ⟨md2, by rw [pushEffect_memo, setObs_memo]; exact hmd2, hxi⟩
      · intro hB x hx
        rw [pushEffect_next, setObs_next] at hx
        have hxs : x ≠ s := by intro hxs; subst hxs; omega
        constructor
        · rw [pushEffect_obs, setObs_obs, if_neg hxs]; exact (hB x hx).1
        · rw [pushEffect_memo, setObs_memo]; exact (hB x hx).2
      · intro p hp
        exact hS s c hc p (List.mem_reverse.mp hp)
      · intro hns hC m2 md2 hm2
        rw [pushEffect_memo, setObs_memo] at hm2
        have hm2s : m2 ≠ s := by
          intro hh; rw [hh, hns] at hm2; cases hm2
        have hgood : MemoGood w m2 md2 := by
          rcases hC m2 md2 hm2 with hmem | hgood
          · cases hmem
          · exact hgood
        obtain ⟨⟨vs2, hvs2, hdata2⟩, hsub2⟩ := hgood
        by_cases hsin : s ∈ md2.inputs
        · left
          have := hsub2 s hsin
          rw [subsOf_some hc] at this
          exact List.mem_reverse.mpr this
        · right
          have hdata1 : ∀ x, x ≠ s →
              dataOf (pushEffect (setObs w s { data := v, subscribers := [] }) s v) x
                = dataOf w x := by
            intro x hxs
            rw [dataOf, dataOf, pushEffect_obs, setObs_obs, if_neg hxs]
          have hsubs1 : ∀ i, i ≠ s →
              subsOf (pushEffect (setObs w s { data := v, subscribers := [] }) s v) i
                = subsOf w i := by
            intro i his
            rw [subsOf, subsOf, pushEffect_obs, setObs_obs, if_neg his]
          refine ⟨⟨vs2, ?_, ?_⟩, ?_⟩
          · refine (readVals_congr _ _ md2.inputs ?_).trans hvs2
            intro i hi
            exact hdata1 i (fun his => hsin (his ▸ hi))
          · exact (hdata1 m2 hm2s).trans hdata2
          · intro i hi
            rw [hsubs1 i (fun his => hsin (his ▸ hi))]
            exact hsub2 i hi
  | none =>
    refine ⟨pushEffect (setObs w s { data := v, subscribers := [] }) s v, [],
      updateValue_new hc hs [], ?_, ?_, ?_, ?_, ?_, ?_, by simp, ?_⟩
    · rw [pushEffect_next, setObs_next]
    · rw [pushEffect_memo, setObs_memo]
    · rw [pushEffect_eff, setObs_eff]
    · intro m2 md2 hm2
      rw [pushEffect_memo, setObs_memo] at hm2
      obtain ⟨a, b, c2, d⟩ := hWF m2 md2 hm2
      refine ⟨a, ?_, ?_, ?_⟩
      · rw [pushEffect_next, setObs_next]; exact b
      · rw [pushEffect_obs, setObs_obs]
        by_cases hm2s : m2 = s
        · rw [if_pos hm2s]; rfl
        · rw [if_neg hm2s]; exact c2
      · intro i hi
        refine ⟨?_, ?_⟩
        · rw [pushEffect_next, setObs_next]; exact (d i hi).1
        · rw [pushEffect_obs, setObs_obs]
          by_cases his : i = s
          · rw [if_pos his]; rfl
          · rw [if_neg his]; exact (d i hi).2
    · intro x cx hx s2 hs2
      rw [pushEffect_obs, setObs_obs] at hx
      by_cases hxs : x = s
      · rw [if_pos hxs] at hx
        have : cx = { data := v, subscribers := [] } := (Option.some.inj hx).symm
        subst this
        simp at hs2
      · rw [if_neg hxs] at hx
        obtain ⟨md2, hmd2, hxi⟩ := hS x cx hx s2 hs2
        exact ⟨md2, by rw [pushEffect_memo, setObs_memo]; exact hmd2, hxi⟩
    · intro hB x hx
      rw [pushEffect_next, setObs_next] at hx
      have hxs : x ≠ s := by intro hxs; subst hxs; omega
      constructor
      · rw [pushEffect_obs, setObs_obs, if_neg hxs]; exact (hB x hx).1
      · rw [pushEffect_memo, setObs_memo]; exact (hB x hx).2
    · intro hns hC m2 md2 hm2
      rw [pushEffect_memo, setObs_memo] at hm2
      have hm2s : m2 ≠ s := by
        intro hh; rw [hh, hns] at hm2; cases hm2
      have hsin : s ∉ md2.inputs := by
        intro hsin
        have := ((hWF m2 md2 hm2).2.2.2 s hsin).2
        rw [hc] at this
        cases this
      have hgood : MemoGood w m2 md2 := by
        rcases hC m2 md2 hm2 with hmem | hgood
        · cases hmem
        · exact hgood
      obtain ⟨⟨vs2, hvs2, hdata2⟩, hsub2⟩ := hgood
      right
      have hdata1 : ∀ x, x ≠ s →
          dataOf (pushEffect (setObs w s { data := v, subscribers := [] }) s v) x
            = dataOf w x := by
        intro x hxs
        rw [dataOf, dataOf, pushEffect_obs, setObs_obs, if_neg hxs]
      have hsubs1 : ∀ i, i ≠ s →
          subsOf (pushEffect (setObs w s { data := v, subscribers := [] }) s v) i
            = subsOf w i := by
        intro i his
        rw [subsOf, subsOf, pushEffect_obs, setObs_obs, if_neg his]
      refine ⟨⟨vs2, ?_, ?_⟩, ?_⟩
      · refine (readVals_congr _ _ md2.inputs ?_).trans hvs2
        intro i hi
        exact hdata1 i (fun his => hsin (his ▸ hi))
      · exact (hdata1 m2 hm2s).trans hdata2
      · intro i hi
        rw [hsubs1 i (fun his => hsin (his ▸ hi))]
        exact hsub2 i hi

/-- Existence of a terminating `send_signal` run on a well-formed acyclic
world, preserving well-formedness and consistency. -/
theorem sendSignal_run {w : RxWorld V} {s : Nat} {v : V} (h : Nat → Nat)
    (hWF : MemoWF w) (hS : SubsWF w) (hA : AcyclicHt w h) (hs : s < w.next) :
    ∃ n w1 lg, sendSignal n w s v = .ok w1 lg ∧
      w1.next = w.next ∧ w1.memo = w.memo ∧ w1.eff = w.eff ∧
      MemoWF w1 ∧ SubsWF w1 ∧ (Bounded w → Bounded w1) ∧
      (w.memo s = none → Consistent w → Consistent w1) := by
  obtain ⟨w0, σ0, hu, un, umo, uef, uWF, uS, uB, udep, uInv⟩ :=
    updateValue_init (v := v) hWF hS hs
  have hA0 : AcyclicHt w0 h := memoEq_acyclic umo hA
  have hb0 : ∀ x ∈ σ0, x < w0.next ∧ h x < h s + 1 := by
    intro x hx
    obtain ⟨md2, hmd2, hsin⟩ := udep x hx
    have := hA x md2 hmd2 s hsin
    exact ⟨by rw [un]; exact (hWF x md2 hmd2).2.1, by omega⟩
  obtain ⟨n, w1, lg, hrun⟩ := runStack_total h (h s + 1) σ0 w0 [] uWF uS hA0 hb0
  obtain ⟨j1, j2, j3, -⟩ := runStack_keep n w0 σ0 [] w1 lg hrun
  obtain ⟨iWF, iS, iB, iInv⟩ :=
    runStack_inv n w0 σ0 [] w1 lg hrun uWF uS (noSelfDep_of_acyclic hA0)
  refine ⟨n, w1, lg, ?_, j1.trans un, j2.trans umo, j3.trans uef,
    iWF, iS, fun hB => iB (uB hB), ?_⟩
  · unfold sendSignal
    rw [hu]
    exact hrun
  · intro hns hC
    have h0 : LoopInv w0 σ0 := uInv hns hC
    have h0' : LoopInv w0 (σ0 ++ []) := by rw [List.append_nil]; exact h0
    exact iInv [] h0'

/-- Preservation of the invariants along a *given* successful
`send_signal` run on a signal handle. -/
theorem sendSignal_inv {w w1 : RxWorld V} {s : Nat} {v : V} {n : Nat}
    {lg : List Nat}
    (hWF : MemoWF w) (hS : SubsWF w) (hN : NoSelfDep w) (hs : s < w.next)
    (hns : w.memo s = none)
    (hrun : sendSignal n w s v = .ok w1 lg) :
    MemoWF w1 ∧ SubsWF w1 ∧ (Bounded w → Bounded w1) ∧
    w1.next = w.next ∧ w1.memo = w.memo ∧ w1.eff = w.eff ∧
    (Consistent w → Consistent w1) := by
  obtain ⟨w0, σ0, hu, un, umo, uef, uWF, uS, uB, udep, uInv⟩ :=
    updateValue_init (v := v) hWF hS hs
  unfold sendSignal at hrun
  rw [hu] at hrun
  have hrun2 : runStack n w0 σ0 [] = .ok w1 lg := hrun
  obtain ⟨j1, j2, j3, -⟩ := runStack_keep n w0 σ0 [] w1 lg hrun2
  obtain ⟨iWF, iS, iB, iInv⟩ :=
    runStack_inv n w0 σ0 [] w1 lg hrun2 uWF uS (memoEq_noSelfDep umo hN)
  refine ⟨iWF, iS, fun hB => iB (uB hB), j1.trans un, j2.trans umo,
    j3.trans uef, ?_⟩
  intro hC
  have h0 : LoopInv w0 (σ0 ++ []) := by
    rw [List.append_nil]; exact uInv hns hC
  exact iInv [] h0

/-! ## The constructors `new_signal` and `new_memo` -/

theorem newSignal_spec (w : RxWorld V) (v : V) :
    (newSignal w v).2 = w.next ∧
    (newSignal w v).1.next = w.next + 1 ∧
    (∀ x, (newSignal w v).1.obs x =
      if x = w.next then some { data := v, subscribers := [] } else w.obs x) ∧
    (newSignal w v).1.memo = w.memo ∧
    (newSignal w v).1.eff = w.eff ∧
    (newSignal w v).1.queue = w.queue :=
  ⟨rfl, rfl, fun _ => rfl, rfl, rfl, rfl⟩

theorem newMemo_exec {w wF : RxWorld V} {inputs : List Nat} {f : List V → V}
    {σF : List Nat}
    (hx : memoExecute { w with next := w.next + 1 } [] w.next ⟨inputs, f⟩
      = some (wF, σF)) :
    newMemo w inputs f = some ({ wF with memo := fun n =>
      if n = w.next then (some ⟨inputs, f⟩) else wF.memo n }, w.next) := by
  unfold newMemo
  simp only [hx]

theorem newMemo_spec {w : RxWorld V} {inputs : List Nat} {f : List V → V}
    (hnd : inputs.Nodup)
    (hin : ∀ i ∈ inputs, i < w.next ∧ (w.obs i).isSome = true)
    (hfresh : w.obs w.next = none) :
    ∃ w2 vs,
      newMemo w inputs f = some (w2, w.next) ∧
      readVals w inputs = some vs ∧
      w2.next = w.next + 1 ∧
      (∀ n, w2.memo n =
        if n = w.next then (some ⟨inputs, f⟩) else w.memo n) ∧
      w2.eff = w.eff ∧
      (∀ x, w2.obs x =
        if x = w.next then some { data := f vs, subscribers := [] }
        else if x ∈ inputs then
          (w.obs x).map
            (fun c => { c with subscribers := c.subscribers ++ [w.next] })
        else w.obs x) := by
  obtain ⟨vs, hvsw⟩ := readVals_isSome w inputs (fun i hi => (hin i hi).2)
  have hobs1 : ({ w with next := w.next + 1 } : RxWorld V).obs = w.obs := rfl
  have hin1 : ∀ i ∈ inputs,
      (({ w with next := w.next + 1 } : RxWorld V).obs i).isSome = true :=
    fun i hi => (hin i hi).2
  obtain ⟨htrue, hobsS⟩ :=
    subscribeAll_true w.next inputs { w with next := w.next + 1 } hin1 hnd
  obtain ⟨hnS, hmoS, hefS, hqS, hdataS, hsomeS⟩ :=
    subscribeAll_keep w.next inputs { w with next := w.next + 1 }
  have hsa : subscribeAll w.next { w with next := w.next + 1 } inputs
      = ((subscribeAll w.next { w with next := w.next + 1 } inputs).1, true) := by
    rw [← htrue]
  have hveq : readVals (subscribeAll w.next { w with next := w.next + 1 } inputs).1
      inputs = some vs := by
    refine (readVals_congr _ w inputs ?_).trans hvsw
    intro i _
    exact hdataS i
  have hguard : inputs.Nodup ∧
      ∀ i ∈ inputs, i < ({ w with next := w.next + 1 } : RxWorld V).next := by
    exact ⟨hnd, fun i hi => by
      show i < w.next + 1
      have := (hin i hi).1
      omega⟩
  have hrd := readAndDerive_run (f := f) hguard hsa hveq
  have hobsE : (subscribeAll w.next { w with next := w.next + 1 } inputs).1.obs
      w.next = none := by
    rw [hobsS w.next]
    have hnotin : w.next ∉ inputs := fun hmem => by
      have := (hin w.next hmem).1
      omega
    rw [if_neg hnotin]
    exact hfresh
  have hltE : w.next <
      (subscribeAll w.next { w with next := w.next + 1 } inputs).1.next := by
    rw [hnS]
    show w.next < w.next + 1
    omega
  have hexec : memoExecute { w with next := w.next + 1 } [] w.next ⟨inputs, f⟩
      = some (pushEffect (setObs
          (subscribeAll w.next { w with next := w.next + 1 } inputs).1 w.next
          { data := f vs, subscribers := [] }) w.next (f vs), []) := by
    unfold memoExecute
    rw [hrd]
    show updateValue (subscribeAll w.next { w with next := w.next + 1 } inputs).1
      [] w.next (f vs) = _
    rw [updateValue_new hobsE hltE []]
  refine ⟨{ pushEffect (setObs
      (subscribeAll w.next { w with next := w.next + 1 } inputs).1 w.next
      { data := f vs, subscribers := [] }) w.next (f vs) with
      memo := fun n => if n = w.next then (some ⟨inputs, f⟩) else
        (pushEffect (setObs
          (subscribeAll w.next { w with next := w.next + 1 } inputs).1 w.next
          { data := f vs, subscribers := [] }) w.next (f vs)).memo n },
    vs, ?_, hvsw, ?_, ?_, ?_, ?_⟩
  · exact newMemo_exec hexec
  · rw [pushEffect_next, setObs_next, hnS]
  · intro n
    show (if n = w.next then some (⟨inputs, f⟩ : MemoData V) else
      (pushEffect (setObs
        (subscribeAll w.next { w with next := w.next + 1 } inputs).1 w.next
        { data := f vs, subscribers := [] }) w.next (f vs)).memo n) = _
    by_cases hne : n = w.next
    · rw [if_pos hne, if_pos hne]
    · rw [if_neg hne, if_neg hne, pushEffect_memo, setObs_memo, hmoS]
  · show (pushEffect (setObs _ w.next _) w.next (f vs)).eff = w.eff
    rw [pushEffect_eff, setObs_eff, hefS]
  · intro x
    show (pushEffect (setObs _ w.next _) w.next (f vs)).obs x = _
    rw [pushEffect_obs, setObs_obs]
    by_cases hxe : x = w.next
    · rw [if_pos hxe, if_pos hxe]
    · rw [if_neg hxe, if_neg hxe, hobsS x]

/-! ## Invariants of worlds built through the public API -/

theorem built_inv {w : RxWorld V} (hb : Built w) :
    Bounded w ∧ MemoWF w ∧ SubsWF w ∧ Ordered w ∧ Consistent w := by
  induction hb with
  | base =>
    refine ⟨fun e _ => ⟨rfl, rfl⟩, ?_, ?_, ?_, ?_⟩
    · intro m md hm; cases hm
    · intro e c hc; cases hc
    · intro m md hm; cases hm
    · intro m md hm; cases hm
  | @sig w v hb ih =>
    obtain ⟨hB, hWF, hS, hO, hC⟩ := ih
    obtain ⟨-, hn, hobs, hmo, hef, -⟩ := newSignal_spec w v
    have hdata : ∀ x, x ≠ w.next → dataOf (newSignal w v).1 x = dataOf w x := by
      intro x hx
      rw [dataOf, dataOf, hobs x, if_neg hx]
    have hsubs : ∀ x, x ≠ w.next → subsOf (newSignal w v).1 x = subsOf w x := by
      intro x hx
      rw [subsOf, subsOf, hobs x, if_neg hx]
    have hmlt : ∀ m md, w.memo m = some md → m ≠ w.next := by
      intro m md hm
      have := (hWF m md hm).2.1
      omega
    have hilt : ∀ m md, w.memo m = some md → ∀ i ∈ md.inputs, i ≠ w.next := by
      intro m md hm i hi
      have := ((hWF m md hm).2.2.2 i hi).1
      omega
    refine ⟨?_, ?_, ?_, ?_, ?_⟩
    · intro e he
      rw [hn] at he
      constructor
      · rw [hobs e, if_neg (by omega)]
        exact (hB e (by omega)).1
      · rw [hmo]
        exact (hB e (by omega)).2
    · intro m md hm
      rw [hmo] at hm
      obtain ⟨a, b, c2, d⟩ := hWF m md hm
      refine ⟨a, by rw [hn]; omega, ?_, ?_⟩
      · rw [hobs m, if_neg (hmlt m md hm)]
        exact c2
      · intro i hi
        refine ⟨by rw [hn]; have := (d i hi).1; omega, ?_⟩
        rw [hobs i, if_neg (hilt m md hm i hi)]
        exact (d i hi).2
    · intro x c hx s2 hs2
      rw [hobs x] at hx
      by_cases hxe : x = w.next
      · rw [if_pos hxe] at hx
        have : c = { data := v, subscribers := [] } := (Option.some.inj hx).symm
        subst this
        simp at hs2
      · rw [if_neg hxe] at hx
        obtain ⟨md2, hmd2, hxi⟩ := hS x c hx s2 hs2
        exact ⟨md2, by rw [hmo]; exact hmd2, hxi⟩
    · intro m md hm
      rw [hmo] at hm
      exact hO m md hm
    · intro m md hm
      rw [hmo] at hm
      have hgood : MemoGood w m md := by
        rcases hC m md hm with hmem | hgood
        · cases hmem
        · exact hgood
      obtain ⟨⟨vs2, hvs2, hdata2⟩, hsub2⟩ := hgood
      right
      refine ⟨⟨vs2, ?_, ?_⟩, ?_⟩
      · refine (readVals_congr _ _ md.inputs ?_).trans hvs2
        intro i hi
        exact hdata i (hilt m md hm i hi)
      · exact (hdata m (hmlt m md hm)).trans hdata2
      · intro i hi
        rw [hsubs i (hilt m md hm i hi)]
        exact hsub2 i hi
  | @mem w w2 inputs f e hb hnd hin hnew ih =>
    obtain ⟨hB, hWF, hS, hO, hC⟩ := ih
    obtain ⟨w3, vs, hnew2, hvs, hn, hmo, hef, hobs⟩ :=
      newMemo_spec hnd hin (hB w.next (le_refl _)).1
    rw [hnew2] at hnew
    have hw23 : w2 = w3 := by
      have := congrArg Prod.fst (Option.some.inj hnew)
      exact this.symm
    subst hw23
    have hdata : ∀ x, x ≠ w.next → dataOf w2 x = dataOf w x := by
      intro x hx
      rw [dataOf, dataOf, hobs x, if_neg hx]
      by_cases hxin : x ∈ inputs
      · rw [if_pos hxin]
        cases w.obs x <;> rfl
      · rw [if_neg hxin]
    have hsubsup : ∀ x m2, m2 ∈ subsOf w x → m2 ∈ subsOf w2 x := by
      intro x m2 hmem
      by_cases hxe : x = w.next
      · subst hxe
        rw [subsOf, (hB w.next (le_refl _)).1] at hmem
        exact absurd hmem (List.not_mem_nil m2)
      · rw [subsOf, hobs x, if_neg hxe]
        by_cases hxin : x ∈ inputs
        · rw [if_pos hxin]
          rw [subsOf] at hmem
          cases hwx : w.obs x with
          | none => rw [hwx] at hmem; exact absurd hmem (List.not_mem_nil m2)
          | some c0 =>
            rw [hwx] at hmem
            exact List.mem_append_left _ hmem
        · rw [if_neg hxin]
          exact hmem
    have hmlt : ∀ m md, w.memo m = some md → m ≠ w.next := by
      intro m md hm
      have := (hWF m md hm).2.1
      omega
    refine ⟨?_, ?_, ?_, ?_, ?_⟩
    · intro x hx
      rw [hn] at hx
      have hxe : x ≠ w.next := by omega
      have hxin : x ∉ inputs := by
        intro hxin; have := (hin x hxin).1; omega
      constructor
      · rw [hobs x, if_neg hxe, if_neg hxin]
        exact (hB x (by omega)).1
      · rw [hmo x, if_neg hxe]
        exact (hB x (by omega)).2
    · intro m md hm
      rw [hmo m] at hm
      by_cases hme : m = w.next
      · rw [if_pos hme] at hm
        have hmd : md = ⟨inputs, f⟩ := (Option.some.inj hm).symm
        subst hmd
        subst hme
        refine ⟨hnd, by rw [hn]; omega, ?_, ?_⟩
        · rw [hobs w.next, if_pos rfl]; rfl
        · intro i hi
          refine ⟨by rw [hn]; have := (hin i hi).1; omega, ?_⟩
          have hie : i ≠ w.next := by
            intro hh; have := (hin i hi).1; omega
          rw [hobs i, if_neg hie, if_pos hi]
          have := (hin i hi).2
          cases hwx : w.obs i with
          | none => rw [hwx] at this; cases this
          | some c0 => rfl
      · rw [if_neg hme] at hm
        obtain ⟨a, b, c2, d⟩ := hWF m md hm
        refine ⟨a, by rw [hn]; omega, ?_, ?_⟩
        · rw [hobs m, if_neg hme]
          by_cases hmin : m ∈ inputs
          · rw [if_pos hmin]
            cases hwx : w.obs m with
            | none => rw [hwx] at c2; cases c2
            | some c0 => rfl
          · rw [if_neg hmin]; exact c2
        · intro i hi
          have hie : i ≠ w.next := by
            have := (d i hi).1; omega
          refine ⟨by rw [hn]; have := (d i hi).1; omega, ?_⟩
          rw [hobs i, if_neg hie]
          by_cases hiin : i ∈ inputs
          · rw [if_pos hiin]
            cases hwx : w.obs i with
            | none =>
              have hps := (d i hi).2
              rw [hwx] at hps
              cases hps
            | some c0 => rfl
          · rw [if_neg hiin]; exact (d i hi).2
    · intro x c hx s2 hs2
      rw [hobs x] at hx
      by_cases hxe : x = w.next
      · rw [if_pos hxe] at hx
        have : c = { data := f vs, subscribers := [] } := (Option.some.inj hx).symm
        subst this
        simp at hs2
      · rw [if_neg hxe] at hx
        by_cases hxin : x ∈ inputs
        · rw [if_pos hxin] at hx
          cases hwx : w.obs x with
          | none => rw [hwx] at hx; cases hx
          | some c0 =>
            rw [hwx] at hx
            have hc : c = { c0 with subscribers := c0.subscribers ++ [w.next] } :=
              (Option.some.inj hx).symm
            subst hc
            rcases List.mem_append.mp hs2 with h1 | h2
            · obtain ⟨md2, hmd2, hxi⟩ := hS x c0 hwx s2 h1
              exact ⟨md2, by rw [hmo s2, if_neg (hmlt s2 md2 hmd2)]; exact hmd2, hxi⟩
            · have hse : s2 = w.next := by simpa using h2
              subst hse
              exact ⟨⟨inputs, f⟩, by rw [hmo w.next, if_pos rfl], hxin⟩
        · rw [if_neg hxin] at hx
          obtain ⟨md2, hmd2, hxi⟩ := hS x c hx s2 hs2
          exact ⟨md2, by rw [hmo s2, if_neg (hmlt s2 md2 hmd2)]; exact hmd2, hxi⟩
    · intro m md hm
      rw [hmo m] at hm
      by_cases hme : m = w.next
      · rw [if_pos hme] at hm
        have hmd : md = ⟨inputs, f⟩ := (Option.some.inj hm).symm
        subst hmd
        subst hme
        intro i hi
        exact (hin i hi).1
      · rw [if_neg hme] at hm
        exact hO m md hm
    · intro m md hm
      rw [hmo m] at hm
      by_cases hme : m = w.next
      · rw [if_pos hme] at hm
        have hmd : md = ⟨inputs, f⟩ := (Option.some.inj hm).symm
        subst hmd
        subst hme
        right
        refine ⟨⟨vs, ?_, ?_⟩, ?_⟩
        · refine (readVals_congr _ _ inputs ?_).trans hvs
          intro i hi
          exact hdata i (by intro hh; have := (hin i hi).1; omega)
        · rw [dataOf, hobs w.next, if_pos rfl]; rfl
        · intro i hi
          have hie : i ≠ w.next := by
            intro hh; have := (hin i hi).1; omega
          rw [subsOf, hobs i, if_neg hie, if_pos hi]
          have := (hin i hi).2
          cases hwx : w.obs i with
          | none => rw [hwx] at this; cases this
          | some c0 => simp
      · rw [if_neg hme] at hm
        have hgood : MemoGood w m md := by
          rcases hC m md hm with hmem | hgood
          · cases hmem
          · exact hgood
        obtain ⟨⟨vs2, hvs2, hdata2⟩, hsub2⟩ := hgood
        right
        refine ⟨⟨vs2, ?_, ?_⟩, ?_⟩
        · refine (readVals_congr _ _ md.inputs ?_).trans hvs2
          intro i hi
          have hie : i ≠ w.next := by
            have := ((hWF m md hm).2.2.2 i hi).1; omega
          exact hdata i hie
        · exact (hdata m hme).trans hdata2
        · intro i hi
          exact hsubsup i m (hsub2 i hi)
  | @send w w2 s v n lg hb hns hs hrun ih =>
    obtain ⟨hB, hWF, hS, hO, hC⟩ := ih
    have hN : NoSelfDep w := by
      intro m md hm hmem
      have := hO m md hm m hmem
      omega
    obtain ⟨iWF, iS, iB, inx, imo, ief, iC⟩ :=
      sendSignal_inv hWF hS hN hs hns hrun
    refine ⟨iB hB, iWF, iS, ?_, iC hC⟩
    intro m md hm
    rw [imo] at hm
    exact hO m md hm

/-! ## Denotation of consistent worlds -/

theorem denoteF_eq_dataOf {w : RxWorld V}
    (hWF : MemoWF w) (hO : Ordered w) (hC : Consistent w) :
    ∀ (n e : Nat), e < n → denoteF w n e = dataOf w e := by
  intro n
  induction n with
  | zero => intro e he; omega
  | succ n ih =>
    intro e he
    unfold denoteF
    cases hm : w.memo e with
    | none => rfl
    | some md =>
      have hgood : MemoGood w e md := by
        rcases hC e md hm with hmem | hgood
        · cases hmem
        · exact hgood
      obtain ⟨⟨vs, hvs, hdata⟩, -⟩ := hgood
      have hseq : seqVals (denoteF w n) md.inputs
          = seqVals (dataOf w) md.inputs := by
        apply seqVals_congr
        intro i hi
        have hilt := hO e md hm i hi
        exact ih i (by omega)
      show (seqVals (denoteF w n) md.inputs).map md.derive = dataOf w e
      rw [hseq, ← readVals_eq_seqVals, hvs, hdata]
      rfl

theorem ordered_acyclic {w : RxWorld V} (hWF : MemoWF w) (hO : Ordered w) :
    AcyclicHt w (fun e => w.next - e) := by
  intro m md hm i hi
  have h1 := hO m md hm i hi
  have h2 := (hWF m md hm).2.1
  simp only
  omega

/-! ## Diff-suppression of identical writes -/

theorem sendSignal_noop {w : RxWorld V} {s : Nat} {c : Cell V} {v : V}
    (hobs : w.obs s = some c) (heq : c.data = v) (fuel : Nat) :
    sendSignal fuel w s v = .ok w [] := by
  unfold sendSignal
  rw [updateValue_same hobs heq]
  exact runStack_nil fuel w []

theorem sendSignal_queue_step {w w1 : RxWorld V} {s : Nat} {c : Cell V} {v : V}
    {fuel : Nat} {lg : List Nat}
    (hns : w.memo s = none) (hobs : w.obs s = some c)
    (hrun : sendSignal fuel w s v = .ok w1 lg) :
    w1.memo s = none ∧ w1.eff = w.eff ∧
    (∃ c1, w1.obs s = some c1 ∧ c1.data = (if c.data = v then c.data else v)) ∧
    queueCountFor w1 s = queueCountFor w s +
      (if c.data = v then 0 else (if w.eff s = true then 1 else 0)) := by
  by_cases hv : c.data = v
  · unfold sendSignal at hrun
    rw [updateValue_same hobs hv] at hrun
    have hrun3 : runStack fuel w [] [] = .ok w1 lg := hrun
    rw [runStack_nil] at hrun3
    cases hrun3
    exact ⟨hns, rfl, ⟨c, hobs, by rw [if_pos hv]⟩, by rw [if_pos hv]; omega⟩
  · unfold sendSignal at hrun
    rw [updateValue_diff hobs hv []] at hrun
    have hrun2 : runStack fuel
        (pushEffect (setObs w s { data := v, subscribers := [] }) s v)
        (c.subscribers.reverse ++ []) [] = .ok w1 lg := hrun
    have hm0 : (pushEffect (setObs w s { data := v, subscribers := [] }) s v).memo
        = w.memo := by rw [pushEffect_memo, setObs_memo]
    obtain ⟨k1, k2, k3, k4⟩ :=
      runStack_keep fuel _ _ _ _ _ hrun2
    have hns0 : (pushEffect (setObs w s { data := v, subscribers := [] }) s v).memo s
        = none := by rw [hm0]; exact hns
    obtain ⟨p1, p2, p3⟩ := k4 s hns0
    have hdata0 : dataOf
        (pushEffect (setObs w s { data := v, subscribers := [] }) s v) s
        = some v := by
      rw [dataOf, pushEffect_obs, setObs_obs, if_pos rfl]
      rfl
    have hd1 : dataOf w1 s = some v := p1.trans hdata0
    have hcnt0 : queueCountFor
        (pushEffect (setObs w s { data := v, subscribers := [] }) s v) s
        = queueCountFor w s + (if w.eff s = true then 1 else 0) := by
      unfold queueCountFor pushEffect
      rw [setObs_eff]
      by_cases he : w.eff s = true
      · rw [if_pos he, if_pos he]
        show (List.filter (fun p => decide (p.1 = s))
          ((setObs w s { data := v, subscribers := [] }).queue ++ [(s, v)])).length
          = _
        rw [setObs_queue, List.filter_append]
        simp
      · rw [if_neg he, if_neg he]
        show (List.filter (fun p => decide (p.1 = s))
          (setObs w s { data := v, subscribers := [] }).queue).length = _
        rw [setObs_queue]
        omega
    refine ⟨by rw [k2, hm0]; exact hns, by rw [k3, pushEffect_eff, setObs_eff], ?_, ?_⟩
    · cases ho1 : w1.obs s with
      | none => rw [dataOf, ho1] at hd1; cases hd1
      | some c1 =>
        rw [dataOf, ho1] at hd1
        refine ⟨c1, rfl, ?_⟩
        rw [if_neg hv]
        exact Option.some.inj hd1
    · rw [if_neg hv]
      exact p3.trans hcnt0

theorem sendMany_cons_ok {w w2 : RxWorld V} {s fuel : Nat} {v : V}
    {vs : List V} {lg2 : List Nat}
    (h1 : sendSignal fuel w s v = .ok w2 lg2) :
    sendMany fuel w s (v :: vs) =
      match sendMany fuel w2 s vs with
      | .ok w3 lg3 => .ok w3 (lg2 ++ lg3)
      | r => r := by
  show (match sendSignal fuel w s v with
    | .ok w1 log1 =>
      match sendMany fuel w1 s vs with
      | .ok w3 lg3 => RunOut.ok w3 (log1 ++ lg3)
      | r => r
    | r => r) = _
  rw [h1]

theorem sendMany_cons_panic {w : RxWorld V} {s fuel : Nat} {v : V}
    {vs : List V} (h1 : sendSignal fuel w s v = .panic) :
    sendMany fuel w s (v :: vs) = .panic := by
  show (match sendSignal fuel w s v with
    | .ok w1 log1 =>
      match sendMany fuel w1 s vs with
      | .ok w3 lg3 => RunOut.ok w3 (log1 ++ lg3)
      | r => r
    | r => r) = _
  rw [h1]

theorem sendMany_cons_fuelOut {w : RxWorld V} {s fuel : Nat} {v : V}
    {vs : List V} (h1 : sendSignal fuel w s v = .fuelOut) :
    sendMany fuel w s (v :: vs) = .fuelOut := by
  show (match sendSignal fuel w s v with
    | .ok w1 log1 =>
      match sendMany fuel w1 s vs with
      | .ok w3 lg3 => RunOut.ok w3 (log1 ++ lg3)
      | r => r
    | r => r) = _
  rw [h1]

theorem sendMany_same {w : RxWorld V} {s : Nat} {c : Cell V} {v : V}
    (hobs : w.obs s = some c) (heq : c.data = v) :
    ∀ (N fuel : Nat), sendMany fuel w s (List.replicate N v) = .ok w [] := by
  intro N
  induction N with
  | zero => intro fuel; rfl
  | succ N ih =>
    intro fuel
    show sendMany fuel w s (v :: List.replicate N v) = .ok w []
    rw [sendMany_cons_ok (sendSignal_noop hobs heq fuel), ih fuel]
    rfl

theorem sendMany_chain {s : Nat} :
    ∀ (vs : List V) (w : RxWorld V) (c : Cell V) (fuel : Nat)
      (w1 : RxWorld V) (lg : List Nat),
      w.memo s = none → w.eff s = true → w.obs s = some c →
      List.Chain (fun a b => ¬ a = b) c.data vs →
      sendMany fuel w s vs = .ok w1 lg →
      queueCountFor w1 s = queueCountFor w s + vs.length := by
  intro vs
  induction vs with
  | nil =>
    intro w c fuel w1 lg _ _ _ _ hrun
    cases hrun
    simp
  | cons v rest ih =>
    intro w c fuel w1 lg hns heff hobs hchain hrun
    have hne : ¬ c.data = v := (List.chain_cons.mp hchain).1
    have hchain2 := (List.chain_cons.mp hchain).2
    cases h1 : sendSignal fuel w s v with
    | ok w2 lg2 =>
      rw [sendMany_cons_ok h1] at hrun
      obtain ⟨hns2, heff2, ⟨c2, hobs2, hdata2⟩, hcount⟩ :=
        sendSignal_queue_step hns hobs h1
      rw [if_neg hne] at hdata2 hcount
      rw [heff, if_pos rfl] at hcount
      cases h2 : sendMany fuel w2 s rest with
      | ok w3 lg3 =>
        rw [h2] at hrun
        have hrec := ih w2 c2 fuel w3 lg3 hns2
          (by rw [heff2]; exact heff) hobs2
          (by rw [hdata2]; exact hchain2) h2
        cases hrun
        rw [hrec, hcount]
        simp only [List.length_cons]
        omega
      | panic => rw [h2] at hrun; cases hrun
      | fuelOut => rw [h2] at hrun; cases hrun
    | panic => rw [sendMany_cons_panic h1] at hrun; cases hrun
    | fuelOut => rw [sendMany_cons_fuelOut h1] at hrun; cases hrun

theorem sendMany_replicate {w : RxWorld V} {s : Nat} {c : Cell V} {v : V}
    {N fuel : Nat} {w1 : RxWorld V} {lg : List Nat}
    (hns : w.memo s = none) (hobs : w.obs s = some c) (hne : ¬ c.data = v)
    (hN : 0 < N)
    (hrun : sendMany fuel w s (List.replicate N v) = .ok w1 lg) :
    queueCountFor w1 s = queueCountFor w s +
      (if w.eff s = true then 1 else 0) := by
  obtain ⟨M, rfl⟩ : ∃ M, N = M + 1 := ⟨N - 1, by omega⟩
  have hrep : List.replicate (M + 1) v = v :: List.replicate M v := rfl
  rw [hrep] at hrun
  cases h1 : sendSignal fuel w s v with
  | ok w2 lg2 =>
    rw [sendMany_cons_ok h1] at hrun
    obtain ⟨hns2, heff2, ⟨c2, hobs2, hdata2⟩, hcount⟩ :=
      sendSignal_queue_step hns hobs h1
    rw [if_neg hne] at hdata2 hcount
    rw [sendMany_same hobs2 hdata2 M fuel] at hrun
    cases hrun
    exact hcount
  | panic => rw [sendMany_cons_panic h1] at hrun; cases hrun
  | fuelOut => rw [sendMany_cons_fuelOut h1] at hrun; cases hrun

/-! ## Failure modes of the dependency recorder -/

theorem subscribeAll_false (r : Nat) : ∀ (is : List Nat) (w : RxWorld V),
    (∃ i ∈ is, w.obs i = none) → (subscribeAll r w is).2 = false := by
  intro is
  induction is with
  | nil =>
    intro w hex
    obtain ⟨i, hi, -⟩ := hex
    cases hi
  | cons i rest ih =>
    intro w hex
    cases h : w.obs i with
    | none => simp [subscribeAll, h]
    | some c =>
      obtain ⟨j, hj, hjn⟩ := hex
      have hji : j ≠ i := by
        intro hh; rw [hh, h] at hjn; cases hjn
      have hjr : j ∈ rest := by
        rcases List.mem_cons.mp hj with h1 | h2
        · exact absurd h1 hji
        · exact h2
      have hjn2 : (setObs w i
          { c with subscribers := c.subscribers ++ [r] }).obs j = none := by
        rw [setObs_obs, if_neg hji]
        exact hjn
      have := ih (setObs w i { c with subscribers := c.subscribers ++ [r] })
        ⟨j, hjr, hjn2⟩
      simp only [subscribeAll, h]
      exact this

/-! ## The batched drain of the deferred-effect queue -/

theorem drainGo_spec (act : Θ → M → M × List Θ) :
    ∀ (ts : List Θ) (st : FlushState M Θ) (tr : List Θ),
      drainGo act ts st tr =
        (⟨mainAfter act ts st.main, st.queue ++ pushesOf act ts st.main⟩,
          tr ++ ts) := by
  intro ts
  induction ts with
  | nil =>
    intro st tr
    show (st, tr) = _
    rw [show pushesOf act [] st.main = [] from rfl, List.append_nil,
      List.append_nil]
    rfl
  | cons t ts ih =>
    intro t0 tr
    show drainGo act ts (runThunk act t t0) (tr ++ [t]) = _
    rw [ih]
    unfold runThunk
    show ((⟨mainAfter act ts (act t t0.main).1,
        (t0.queue ++ (act t t0.main).2) ++ pushesOf act ts (act t t0.main).1⟩
        : FlushState M Θ),
      (tr ++ [t]) ++ ts) = _
    rw [List.append_assoc t0.queue, List.append_assoc tr]
    rfl

/-! ## Built example worlds used by the witnesses -/

theorem built_dw1 : Built dw1 := Built.sig Built.base

theorem built_dw2 : Built dw2 := by
  have h1 : ([0] : List Nat).Nodup := by decide
  have h2 : ∀ i ∈ ([0] : List Nat), i < dw1.next ∧ (dw1.obs i).isSome = true := by
    decide
  have h3 : newMemo dw1 [0] fA = some (dw2, 1) := rfl
  exact Built.mem built_dw1 h1 h2 h3

theorem built_dw3 : Built dw3 := by
  have h1 : ([0, 1] : List Nat).Nodup := by decide
  have h2 : ∀ i ∈ ([0, 1] : List Nat), i < dw2.next ∧ (dw2.obs i).isSome = true := by
    decide
  have h3 : newMemo dw2 [0, 1] fM = some (dw3, 2) := rfl
  exact Built.mem built_dw2 h1 h2 h3

theorem built_dwF : Built dwF := by
  have h1 : dw3.memo 0 = none := rfl
  have h2 : (0 : Nat) < dw3.next := by decide
  have h3 : sendSignal 10 dw3 0 20 = .ok dwF [2, 1, 2, 2] := rfl
  exact Built.send built_dw3 h1 h2 h3

/-! ## The claims -/

/-- C1: for every acyclic reactive graph built by `new_signal` and
`new_memo`, and every sequence of `send_signal` calls followed by a read
of a memo `m`, the value returned by `read(m)` equals the composition of
the memo derive functions applied to the current values of the source
signals `m` transitively depends on (`denoteF` unfolds the derive
functions down to the cells without a compute closure). -/
theorem c1_memo_read_is_derive_composition {w : RxWorld V} {m : Nat}
    {md : MemoData V} (hb : Built w) (hm : w.memo m = some md) :
    dataOf w m = denoteF w w.next m := by
  obtain ⟨-, hWF, -, hO, hC⟩ := built_inv hb
  exact (denoteF_eq_dataOf hWF hO hC w.next m (hWF m md hm).2.1).symm

/-- Witness for C1 on the diamond `x = signal 10`, `a = memo (x) (+1)`,
`m = memo (x, a) (+)` after `send_signal x 20`: the cached value of `m`
is the denotation, namely `20 + (20 + 1) = 41`. -/
theorem c1_witness :
    dataOf dwF 2 = denoteF dwF dwF.next 2 ∧ dataOf dwF 2 = some 41 :=
  ⟨c1_memo_read_is_derive_composition built_dwF
    (rfl : dwF.memo 2 = some ⟨[0, 1], fM⟩), rfl⟩

/-- C2: writing a value equal (by `PartialEq`) to the cell current value
is a complete no-op: `send_signal` returns immediately with the world
unchanged (every cell value, subscriber list and the deferred-effect
queue included) and an empty execution log (no derive invoked). -/
theorem c2_identical_write_is_noop {w : RxWorld V} {s : Nat} {c : Cell V}
    {v : V} (hobs : w.obs s = some c) (heq : c.data = v) (fuel : Nat) :
    sendSignal fuel w s v = .ok w [] :=
  sendSignal_noop hobs heq fuel

/-- Witness for C2: re-sending 10 to the signal holding 10. -/
theorem c2_witness : sendSignal 5 dw1 0 (10 : Nat) = .ok dw1 [] :=
  c2_identical_write_is_noop (rfl : dw1.obs 0 = some ⟨10, []⟩) rfl 5

/-- C3 (counterexample): on the diamond `x = signal 10`, `a = memo (x)`,
`m = memo (x, a)`, the first `send_signal x 20` executes memo 2 three
times (log `[2, 1, 2, 2]`), not exactly once; the second identical write
executes nothing. -/
theorem c3_counterexample :
    runLog (sendSignal 10 dw3 0 20) = some [2, 1, 2, 2] ∧
    runLog (sendSignal 10 dwF 0 20) = some [] ∧
    [2, 1, 2, 2].count 2 = 3 :=
  ⟨rfl, rfl, by decide⟩

/-- C3 (amended): after any successful `send_signal` on a signal handle,
repeating the same write is cut off by the diff: it leaves the world
unchanged and invokes zero memo derive functions. -/
theorem c3_second_write_zero_recomputations {w w1 : RxWorld V} {s : Nat}
    {v : V} {n : Nat} {lg : List Nat}
    (hns : w.memo s = none) (hrun : sendSignal n w s v = .ok w1 lg)
    (n2 : Nat) :
    sendSignal n2 w1 s v = .ok w1 [] := by
  unfold sendSignal at hrun
  cases hu : updateValue w [] s v with
  | none => rw [hu] at hrun; cases hrun
  | some p =>
    rw [hu] at hrun
    obtain ⟨w0, σ0⟩ := p
    have hrun2 : runStack n w0 σ0 [] = .ok w1 lg := hrun
    obtain ⟨-, umo, -, -, ud, -, -⟩ := updateValue_keep hu
    obtain ⟨-, kmo, -, kkeep⟩ := runStack_keep n w0 σ0 [] w1 lg hrun2
    have hns0 : w0.memo s = none := by rw [umo]; exact hns
    obtain ⟨p1, -, -⟩ := kkeep s hns0
    have hd : dataOf w1 s = some v := p1.trans ud
    cases ho : w1.obs s with
    | none => rw [dataOf, ho] at hd; cases hd
    | some c1 =>
      rw [dataOf, ho] at hd
      exact sendSignal_noop ho (Option.some.inj hd) n2

/-- Witness for the amended C3 on the diamond. -/
theorem c3_witness : sendSignal 10 dwF 0 (20 : Nat) = .ok dwF [] := by
  have hns : dw3.memo 0 = none := rfl
  have hrun : sendSignal 10 dw3 0 20 = .ok dwF [2, 1, 2, 2] := rfl
  exact c3_second_write_zero_recomputations hns hrun 10

/-- C4 (counterexample): after one public `send_signal` on the diamond,
cell 1 subscriber list is `[2, 2]` — the memo id 2 appears twice, so
subscriber lists do not have set semantics between public calls. -/
theorem c4_counterexample :
    (runWorld (sendSignal 10 dw3 0 20)).map (fun w => subsOf w 1)
      = some [2, 2] ∧ ¬ ([2, 2] : List Nat).Nodup :=
  ⟨rfl, by decide⟩

/-- C4 (amended): subscriber lists are plain `Vec`s without
deduplication, but every entry of a cell subscriber list is a memo that
names the cell among its declared inputs. -/
theorem c4_subscribers_are_dependents {w : RxWorld V} (hb : Built w) :
    ∀ e c, w.obs e = some c → ∀ s2 ∈ c.subscribers,
      ∃ md, w.memo s2 = some md ∧ e ∈ md.inputs :=
  (built_inv hb).2.2.1

/-- Witness for the amended C4: the duplicated entry 2 of cell 1 list on
the diamond is the memo `m` with `1` among its inputs. -/
theorem c4_witness :
    ∃ md, dwF.memo 2 = some md ∧ 1 ∈ md.inputs :=
  c4_subscribers_are_dependents built_dwF 1 ⟨21, [2, 2]⟩ rfl 2 (by decide)

/-- C5: for an effect-annotated source cell, a sequence of `send_signal`
calls in which each written value differs from the then-current value
appends exactly one thunk per write for that cell, and a sequence of
identical writes after the first appends exactly one thunk in total. -/
theorem c5_effect_queue_counts {w : RxWorld V} {s : Nat} {c : Cell V}
    (hns : w.memo s = none) (heff : w.eff s = true)
    (hobs : w.obs s = some c) :
    (∀ (vs : List V) (fuel : Nat) (w1 : RxWorld V) (lg : List Nat),
      List.Chain (fun a b => ¬ a = b) c.data vs →
      sendMany fuel w s vs = .ok w1 lg →
      queueCountFor w1 s = queueCountFor w s + vs.length) ∧
    (∀ (v : V) (N fuel : Nat) (w1 : RxWorld V) (lg : List Nat),
      ¬ c.data = v → 0 < N →
      sendMany fuel w s (List.replicate N v) = .ok w1 lg →
      queueCountFor w1 s = queueCountFor w s + 1) := by
  constructor
  · intro vs fuel w1 lg hch hrun
    exact sendMany_chain vs w c fuel w1 lg hns heff hobs hch hrun
  · intro v N fuel w1 lg hne hN hrun
    have hres := sendMany_replicate hns hobs hne hN hrun
    rw [heff, if_pos rfl] at hres
    exact hres

/-- Witness for C5: two distinct writes to the effect-annotated signal
queue exactly two thunks. -/
theorem c5_witness :
    queueCountFor ((runWorld (sendMany 5 wC5 0 [20, 30])).getD wC5) 0 = 2 := by
  have h := (c5_effect_queue_counts (rfl : wC5.memo 0 = none)
    (rfl : wC5.eff 0 = true) (rfl : wC5.obs 0 = some ⟨10, []⟩)).1
    [20, 30] 5 ((runWorld (sendMany 5 wC5 0 [20, 30])).getD wC5) []
    (List.Chain.cons (by decide) (List.Chain.cons (by decide) List.Chain.nil))
    rfl
  exact h

/-- C6: `apply_deferred_effects` takes the queue (leaving it empty) and
executes exactly the taken thunks in insertion (FIFO) order — the trace
component equals the original queue and the external state is the
in-order fold — while every thunk pushed during the flush is not
executed but is exactly what remains queued for the next flush. -/
theorem c6_flush_fifo_take_discipline (act : Θ → M → M × List Θ)
    (s : FlushState M Θ) :
    applyDeferredEffects act s =
      (⟨mainAfter act s.queue s.main, pushesOf act s.queue s.main⟩,
        s.queue) := by
  unfold applyDeferredEffects
  rw [drainGo_spec]
  rfl

/-- C7 (counterexample): executing a memo whose live input entity lacks
the typed data component does not panic: `read_and_derive` returns via
the `?` operator and the memo execution silently keeps the old cached
value 42. -/
theorem c7_counterexample :
    memoExecute wC7 [] 1 ⟨[0], fA⟩ = some (wC7, []) ∧
    dataOf wC7 1 = some 42 :=
  ⟨rfl, rfl⟩

/-- C7 (amended): `get_many_entities_mut(..).unwrap()` panics when the
inputs repeat an entity or name a despawned one; but when an input entity
is alive and merely lacks the typed `RxObservableData` component
(missing or mistyped), the recorder returns `None` and the memo execution
silently skips the update, leaving the memo old value in place. -/
theorem c7_recorder_failure_modes :
    (∀ (w : RxWorld V) (r : Nat) (f : List V → V) (inputs : List Nat),
      (¬ inputs.Nodup ∨ ∃ i ∈ inputs, w.next ≤ i) →
      readAndDerive w r f inputs = none) ∧
    (∀ (w : RxWorld V) (σ : List Nat) (e : Nat) (md : MemoData V),
      md.inputs.Nodup → (∀ i ∈ md.inputs, i < w.next) →
      (∃ i ∈ md.inputs, w.obs i = none) →
      ∃ w1, memoExecute w σ e md = some (w1, σ) ∧
        dataOf w1 e = dataOf w e) := by
  constructor
  · intro w r f inputs hbad
    unfold readAndDerive
    rw [if_neg ?bad]
    case bad =>
      intro hc
      rcases hbad with hb | ⟨i, hi, hge⟩
      · exact hb hc.1
      · have := hc.2 i hi
        omega
  · intro w σ e md hnd hlt hex
    have hf : (subscribeAll e w md.inputs).2 = false :=
      subscribeAll_false e md.inputs w hex
    have hsa : subscribeAll e w md.inputs
        = ((subscribeAll e w md.inputs).1, false) := by
      rw [← hf]
    obtain ⟨-, -, -, -, hdataS, -⟩ := subscribeAll_keep e md.inputs w
    have hrd : readAndDerive w e md.derive md.inputs
        = some ((subscribeAll e w md.inputs).1, none) := by
      unfold readAndDerive
      rw [if_pos ⟨hnd, hlt⟩, hsa]
    refine ⟨(subscribeAll e w md.inputs).1, ?_, hdataS e⟩
    unfold memoExecute
    rw [hrd]

/-- Witness for the amended C7: duplicate inputs panic, and a live input
without data makes the execution a silent skip that keeps the old
value. -/
theorem c7_witness :
    readAndDerive wC7 1 fA [0, 0] = none ∧
    ∃ w1, memoExecute wC7 [] 1 (⟨[0], fA⟩ : MemoData Nat) = some (w1, []) ∧
      dataOf w1 1 = dataOf wC7 1 := by
  constructor
  · exact c7_recorder_failure_modes.1 wC7 1 fA [0, 0] (Or.inl (by decide))
  · exact c7_recorder_failure_modes.2 wC7 [] 1 ⟨[0], fA⟩ (by decide)
      (by decide) ⟨0, by decide, rfl⟩

/-- C8: `new_memo` on duplicate-free handles to existing data-carrying
cells immediately executes the compute: the fresh memo cell holds the
derive function applied to the current input values, and the memo id is
appended to every input subscriber list. -/
theorem c8_new_memo_initializes_and_subscribes {w : RxWorld V}
    {inputs : List Nat} {f : List V → V}
    (hnd : inputs.Nodup)
    (hin : ∀ i ∈ inputs, i < w.next ∧ (w.obs i).isSome = true)
    (hfresh : w.obs w.next = none) :
    ∃ w2 vs, newMemo w inputs f = some (w2, w.next) ∧
      readVals w inputs = some vs ∧
      dataOf w2 w.next = some (f vs) ∧
      ∀ i ∈ inputs, w.next ∈ subsOf w2 i := by
  obtain ⟨w2, vs, h1, h2, hn, hmo, hef, hobs⟩ := newMemo_spec hnd hin hfresh
  refine ⟨w2, vs, h1, h2, ?_, ?_⟩
  · rw [dataOf, hobs w.next, if_pos rfl]
    rfl
  · intro i hi
    have hie : i ≠ w.next := by
      have := (hin i hi).1
      omega
    rw [subsOf, hobs i, if_neg hie, if_pos hi]
    have hsome := (hin i hi).2
    cases hwx : w.obs i with
    | none => rw [hwx] at hsome; cases hsome
    | some c0 => exact List.mem_append_right _ (by simp)

/-- Witness for C8: creating `a = memo (x) (+1)` over the signal world. -/
theorem c8_witness :
    ∃ w2 vs, newMemo dw1 [0] fA = some (w2, dw1.next) ∧
      readVals dw1 [0] = some vs ∧
      dataOf w2 dw1.next = some (fA vs) ∧
      ∀ i ∈ [0], dw1.next ∈ subsOf w2 i :=
  c8_new_memo_initializes_and_subscribes (by decide) (by decide) rfl

/-- C9: for every well-formed acyclic dependency graph (witnessed by a
height function) the propagation loop entered by `send_signal`
terminates: some finite fuel makes the work stack empty. -/
theorem c9_send_signal_terminates {w : RxWorld V} {s : Nat} (h : Nat → Nat)
    (v : V) (hWF : MemoWF w) (hS : SubsWF w) (hA : AcyclicHt w h)
    (hs : s < w.next) :
    ∃ n w1 lg, sendSignal n w s v = .ok w1 lg := by
  obtain ⟨n, w1, lg, hrun, -, -, -, -, -, -, -⟩ := sendSignal_run h hWF hS hA hs
  exact ⟨n, w1, lg, hrun⟩

/-- Witness for C9 on the diamond world. -/
theorem c9_witness : ∃ n w1 lg, sendSignal n dw3 0 (20 : Nat) = .ok w1 lg := by
  obtain ⟨-, hWF, hS, hO, -⟩ := built_inv built_dw3
  exact c9_send_signal_terminates (fun e => dw3.next - e) 20 hWF hS
    (ordered_acyclic hWF hO) (by decide)

/-- C10: a memo whose input tuple names the same entity more than once
panics when its compute executes (`get_many_entities_mut` rejects
duplicate ids and the result is unwrapped unconditionally), already
during `new_memo` which runs the compute once. -/
theorem c10_duplicate_inputs_panic {w : RxWorld V} {inputs : List Nat}
    {f : List V → V} (hdup : ¬ inputs.Nodup) :
    newMemo w inputs f = none := by
  have hrd : readAndDerive { w with next := w.next + 1 } w.next f inputs
      = none := by
    unfold readAndDerive
    rw [if_neg (fun hc => hdup hc.1)]
  have hx : memoExecute { w with next := w.next + 1 } [] w.next
      (⟨inputs, f⟩ : MemoData V) = none := by
    unfold memoExecute
    rw [show (⟨inputs, f⟩ : MemoData V).derive = f from rfl,
      show (⟨inputs, f⟩ : MemoData V).inputs = inputs from rfl, hrd]
  unfold newMemo
  simp only [hx]

/-- Witness for C10: `new_memo((x, x), f)` panics. -/
theorem c10_witness : newMemo (emptyWorld Nat) [0, 0] fA = none :=
  c10_duplicate_inputs_panic (by decide)

end BevyRx
